import Mathlib

/-
Verification development for the `toarray` selection engine.

The selection engine (range scanner, candidate selector, packer, stream
chunker, diagnostics) is shallowly embedded below.  The engine's own module
is not part of the source tree handed to us (only its adapters
`numpy_compat.py`, `memory.py`, `arrow_compat.py` and its test-suite are),
so the engine definitions are modelled from the specification, as noted in
their doc comments.  The numpy adapter `to_numpy` is embedded from
`src/toarray/numpy_compat.py` directly.

Python scalars are modelled by the tagged type `Value`: machine-independent
integers, IEEE-double values (a rational for every finite double, plus the
two infinities and NaN), and an opaque non-numeric payload.
-/

deriving instance DecidableEq for Except

namespace ToArray

/-- Modelled from the spec: the ten catalog typecodes, in capacity-rank
order `b < B < h < H < i < I < q < Q < f < d` (Python `array` codes). -/
inductive Code
  | b
  | B
  | h
  | H
  | i
  | I
  | q
  | Q
  | f
  | d
deriving DecidableEq

/-- A Python float value: every finite IEEE double is a rational number;
the two infinities and NaN are separate tags. -/
inductive FloatVal
  | fin (q : ℚ)
  | posInf
  | negInf
  | nan
deriving DecidableEq

/-- A scalar handed to the engine: an integer, a float, or a non-numeric
object carrying an opaque payload. -/
inductive Value
  | int (n : ℤ)
  | float (x : FloatVal)
  | other (s : String)
deriving DecidableEq

/-- True exactly on the non-numeric scalars. -/
def isNonNumericV : Value → Bool
  | .other _ => true
  | _ => false

/-- True exactly on the numeric scalars. -/
def isNumericV (v : Value) : Bool :=
  !isNonNumericV v

/-- True exactly on float-tagged scalars. -/
def isFloatV : Value → Bool
  | .float _ => true
  | _ => false

/-- Numeric equality in Python's sense: `1 == 1.0` is true while NaN
compares unequal to everything, itself included. -/
def veq : Value → Value → Bool
  | .int a, .int b => a = b
  | .int a, .float (.fin q) => (a : ℚ) = q
  | .float (.fin q), .int a => q = (a : ℚ)
  | .float (.fin p), .float (.fin q) => p = q
  | .float .posInf, .float .posInf => true
  | .float .negInf, .float .negInf => true
  | .other s, .other t => s = t
  | _, _ => false

/-- Extended number line used for the scanner's running minimum and
maximum (the scanner's accumulator starts at the empty range
`(+inf, -inf)` and infinite float values are their own endpoints). -/
inductive Extended
  | negInf
  | fin (q : ℚ)
  | posInf
deriving DecidableEq

/-- Boolean order test on the extended number line. -/
def Extended.ele : Extended → Extended → Bool
  | .negInf, _ => true
  | _, .posInf => true
  | .fin a, .fin b => decide (a ≤ b)
  | .posInf, _ => false
  | .fin _, .negInf => false

/-- Minimum on the extended number line. -/
def emin (x y : Extended) : Extended :=
  if Extended.ele x y then x else y

/-- Maximum on the extended number line. -/
def emax (x y : Extended) : Extended :=
  if Extended.ele x y then y else x

/-- Modelled from the spec: an immutable candidate descriptor with
typecode, signedness, float flag, bit width and value range. -/
structure Candidate where
  code : Code
  signed : Bool
  is_float : Bool
  bit_width : Nat
  min_value : ℚ
  max_value : ℚ
deriving DecidableEq

/-- Largest finite IEEE single-precision magnitude, `(2^24 - 1) * 2^104`,
written as a plain numeral so the kernel evaluates comparisons with it. -/
def F32MAX : ℚ := 340282346638528859811704183484516925440

/-- Largest finite IEEE double-precision magnitude, `(2^53 - 1) * 2^971`,
written as a plain numeral so the kernel evaluates comparisons with it. -/
def F64MAX : ℚ := 179769313486231570814527423731704356798070567525844996598917476803157260780028538760589558632766878171540458953514382464234321326889464182768467546703537516986049910576551282076245490090389328944075868508455133942304583236903222948165808559332123348274797826204144723168738177180919299881250404026184124858368

/-- Modelled from the spec: the full ordered catalog of candidates
(signed/unsigned integers of 8/16/32/64 bits, then the two floats). -/
def catalog : List Candidate :=
  [ ⟨.b, true, false, 8, -128, 127⟩,
    ⟨.B, false, false, 8, 0, 255⟩,
    ⟨.h, true, false, 16, -32768, 32767⟩,
    ⟨.H, false, false, 16, 0, 65535⟩,
    ⟨.i, true, false, 32, -2147483648, 2147483647⟩,
    ⟨.I, false, false, 32, 0, 4294967295⟩,
    ⟨.q, true, false, 64, -9223372036854775808, 9223372036854775807⟩,
    ⟨.Q, false, false, 64, 0, 18446744073709551615⟩,
    ⟨.f, false, true, 32, -F32MAX, F32MAX⟩,
    ⟨.d, false, true, 64, -F64MAX, F64MAX⟩ ]

/-- Capacity rank of a typecode: its index in the catalog. -/
def rank : Code → Nat
  | .b => 0
  | .B => 1
  | .h => 2
  | .H => 3
  | .i => 4
  | .I => 5
  | .q => 6
  | .Q => 7
  | .f => 8
  | .d => 9

/-- Candidate-ordering strategy of the selector. -/
inductive OrderPolicy
  | smallest
  | balanced
  | wide
deriving DecidableEq

/-- Modelled from the spec: the recognized policy options with their
documented defaults. -/
structure SelectionPolicy where
  policy : OrderPolicy := .smallest
  min_type : Option Code := none
  max_type : Option Code := none
  prefer_signed : Bool := false
  no_float : Bool := false
  strict : Bool := false
  allow_float_downgrade : Bool := true
  sample_size : Option Nat := none
deriving DecidableEq

/-- Lower end of the policy's inclusive rank slice (0 when absent). -/
def sliceLo (pol : SelectionPolicy) : Nat :=
  (pol.min_type.map rank).getD 0

/-- Upper end of the policy's inclusive rank slice (9 when absent). -/
def sliceHi (pol : SelectionPolicy) : Nat :=
  (pol.max_type.map rank).getD 9

/-- Modelled from the spec: the catalog sliced to the inclusive rank range
`[rank min_type, rank max_type]`. -/
def candidateSlice (pol : SelectionPolicy) : List Candidate :=
  (catalog.drop (sliceLo pol)).take (sliceHi pol + 1 - sliceLo pol)

/-- The sliced catalog with float candidates removed under `no_float`. -/
def effectiveCands (pol : SelectionPolicy) : List Candidate :=
  if pol.no_float then (candidateSlice pol).filter (fun c => !c.is_float)
  else candidateSlice pol

/-- Modelled from the spec: whether a candidate's range covers the
observed range.  Integer candidates need both endpoints finite and inside
their value range; float32 needs both magnitudes finite within `F32MAX`,
no NaN observed, and `allow_float_downgrade`; float64 holds any numeric
data (infinities and NaN included). -/
def coversB (pol : SelectionPolicy) (mn mx : Extended) (sawNan : Bool)
    (c : Candidate) : Bool :=
  if c.is_float then
    if c.code = .d then true
    else
      pol.allow_float_downgrade && !sawNan &&
        (match mn, mx with
         | .fin a, .fin b => decide (|a| ≤ F32MAX) && decide (|b| ≤ F32MAX)
         | _, _ => false)
  else
    match mn, mx with
    | .fin a, .fin b => decide (c.min_value ≤ a) && decide (b ≤ c.max_value)
    | _, _ => false

/-- Kind classification of an inspected sequence. -/
inductive RKind
  | empty
  | nonNumeric
  | integer
  | float
deriving DecidableEq

/-- Running state of the range scanner.  `pinned` records that the early
exit has fired: the running min/max can no longer change which candidate
is selected, so range accumulation stops (kind classification and the NaN
flag stay live, per the terminal non-numeric rule). -/
structure ScanSt where
  count : Nat := 0
  nonNum : Bool := false
  seenFloat : Bool := false
  sawNan : Bool := false
  pinned : Bool := false
  mn : Extended := .posInf
  mx : Extended := .negInf
deriving DecidableEq

/-- Modelled from the spec: the early-exit test.  The running range
already fails every candidate of the effective set other than float64, so
no further narrowing is possible regardless of the remaining elements. -/
def pinCond (pol : SelectionPolicy) (st : ScanSt) : Bool :=
  st.count != 0 &&
    (effectiveCands pol).all
      (fun c => c.code = .d || !(coversB pol st.mn st.mx st.sawNan c))

/-- Fold one observed endpoint into the running range (frozen once
pinned). -/
def rangeUpd (st : ScanSt) (e : Extended) : ScanSt :=
  if st.pinned then st else { st with mn := emin st.mn e, mx := emax st.mx e }

/-- Fire the early exit when enabled and its condition holds. -/
def pinUpd (pol : SelectionPolicy) (early : Bool) (st : ScanSt) : ScanSt :=
  if early && !st.pinned && pinCond pol st then { st with pinned := true }
  else st

/-- Whether the scanner still inspects elements (bounded by
`sample_size`). -/
def inspecting (pol : SelectionPolicy) (st : ScanSt) : Bool :=
  match pol.sample_size with
  | some k => st.count < k
  | none => true

/-- Modelled from the spec: one scanner step.  Non-numeric is terminal
for the call; NaN marks the float kind and the NaN flag without touching
the range; other numerics fold their endpoint into the running range. -/
def scanStep (pol : SelectionPolicy) (early : Bool) (st : ScanSt)
    (v : Value) : ScanSt :=
  if st.nonNum then st
  else if inspecting pol st then
    match v with
    | .other _ => { st with nonNum := true, count := st.count + 1 }
    | .int n =>
        pinUpd pol early (rangeUpd { st with count := st.count + 1 } (.fin (n : ℚ)))
    | .float .nan =>
        pinUpd pol early
          { st with count := st.count + 1, seenFloat := true, sawNan := true }
    | .float (.fin q) =>
        pinUpd pol early
          (rangeUpd { st with count := st.count + 1, seenFloat := true } (.fin q))
    | .float .posInf =>
        pinUpd pol early
          (rangeUpd { st with count := st.count + 1, seenFloat := true } .posInf)
    | .float .negInf =>
        pinUpd pol early
          (rangeUpd { st with count := st.count + 1, seenFloat := true } .negInf)
  else st

/-- Run the scanner over a sequence.  `early` enables the early exit;
the engine's entry points run with it enabled. -/
def scanList (pol : SelectionPolicy) (early : Bool) (vs : List Value) : ScanSt :=
  vs.foldl (scanStep pol early) {}

/-- Modelled from the spec: the `ObservedRange` record of one scan. -/
structure Observed where
  count : Nat
  kind : RKind
  mn : Extended
  mx : Extended
  sawNan : Bool
deriving DecidableEq

/-- Derive the observed record of a scan over `vs`. -/
def observe (vs : List Value) (st : ScanSt) : Observed :=
  { count := st.count
    kind :=
      if st.nonNum then .nonNumeric
      else if vs.isEmpty then .empty
      else if st.seenFloat then .float
      else .integer
    mn := st.mn
    mx := st.mx
    sawNan := st.sawNan }

/-- Whether the observed range contains a negative value. -/
def hasNeg : Extended → Bool
  | .negInf => true
  | .fin a => decide (a < 0)
  | .posInf => false

/-- The candidates of one bit width, in catalog order (signed first). -/
def widthGroup (cs : List Candidate) (w : Nat) : List Candidate :=
  cs.filter (fun c => c.bit_width = w)

/-- Modelled from the spec: the integer part of the policy ordering.
`smallest` walks widths ascending, unsigned before signed unless
`prefer_signed`; `balanced` keeps the signed-leaning catalog order;
`wide` walks integer widths descending.  When the observed range holds a
negative value only signed integer candidates stay eligible. -/
def orderInts (pol : SelectionPolicy) (neg : Bool)
    (cands : List Candidate) : List Candidate :=
  let ints0 := cands.filter (fun c => !c.is_float)
  let ints := if neg then ints0.filter (fun c => c.signed) else ints0
  let sgrp := fun w =>
    if pol.prefer_signed then widthGroup ints w else (widthGroup ints w).reverse
  match pol.policy with
  | .smallest => sgrp 8 ++ sgrp 16 ++ sgrp 32 ++ sgrp 64
  | .balanced => ints
  | .wide =>
      widthGroup ints 64 ++ widthGroup ints 32 ++ widthGroup ints 16 ++
        widthGroup ints 8

/-- Modelled from the spec: order the effective candidate set per the
policy, float candidates always last. -/
def orderCands (pol : SelectionPolicy) (neg : Bool)
    (cands : List Candidate) : List Candidate :=
  orderInts pol neg cands ++ cands.filter (fun c => c.is_float)

/-- Integer candidates cannot hold float-kind data; any candidate may
hold integer-kind data. -/
def eligibleB (k : RKind) (c : Candidate) : Bool :=
  match k with
  | .float => c.is_float
  | _ => true

/-- The selector's dispatch on the observed kind. -/
def selectCandidateAt (obs : Observed) (pol : SelectionPolicy) :
    RKind → Option Candidate
  | .empty => none
  | .nonNumeric => none
  | k =>
      (orderCands pol (hasNeg obs.mn) (effectiveCands pol)).find?
        (fun c => eligibleB k c && coversB pol obs.mn obs.mx obs.sawNan c)

/-- Modelled from the spec: the candidate selector, a pure function from
the observed range and the policy to the first fitting candidate of the
policy-ordered effective set. -/
def selectCandidate (obs : Observed) (pol : SelectionPolicy) : Option Candidate :=
  selectCandidateAt obs pol obs.kind

/-- Whether one value can be stored in a candidate's buffer: integers
must lie in an integer candidate's range; float32 holds NaN, the
infinities and finite values of magnitude at most `F32MAX`; float64
holds any numeric value. -/
def fitsV (c : Candidate) (v : Value) : Bool :=
  if c.is_float then
    match v with
    | .other _ => false
    | .int n => c.code = .d || decide (|(n : ℚ)| ≤ F32MAX)
    | .float (.fin q) => c.code = .d || decide (|q| ≤ F32MAX)
    | .float _ => true
  else
    match v with
    | .int n => decide (c.min_value ≤ (n : ℚ)) && decide ((n : ℚ) ≤ c.max_value)
    | _ => false

/-- Store one value into a candidate's buffer: float buffers coerce
integers to floats, everything else is stored as the value it is. -/
def convert (c : Candidate) (v : Value) : Value :=
  if c.is_float then
    match v with
    | .int n => .float (.fin (n : ℚ))
    | x => x
  else v

/-- The engine's output: a packed homogeneous buffer tagged with a
typecode (its stored elements are the buffer's exposed values), or the
original sequence returned verbatim. -/
inductive Output
  | packed (code : Code) (values : List Value)
  | fallbackSeq (values : List Value)
deriving DecidableEq

/-- The hard-failure payload: `expected` names the class of candidate
that was required but unavailable. -/
structure SelectionError where
  expected : String
deriving DecidableEq

/-- The elements a packed buffer exposes (the fallback exposes the
original sequence). -/
def readback : Output → List Value
  | .packed _ ws => ws
  | .fallbackSeq ws => ws

/-- Modelled from the spec: the packer.  Non-numeric data can never be
packed and is never a strict failure, so it degrades to the fallback;
a numeric value outside the candidate's range (possible only when
sampling under-detected the range) is a hard fault under `strict` and a
fallback otherwise. -/
def pack (vs : List Value) (c : Candidate) (strict : Bool) :
    Except SelectionError Output :=
  if vs.any isNonNumericV then .ok (.fallbackSeq vs)
  else if vs.all (fitsV c) then .ok (.packed c.code (vs.map (convert c)))
  else if strict then .error { expected := "values in range" }
  else .ok (.fallbackSeq vs)

/-- The `expected` message of a strict failure: floats were present while
excluded by policy, or the bounded candidate set had no fitting member. -/
def expectedMsg (k : RKind) (pol : SelectionPolicy) : String :=
  if k = RKind.float ∧ pol.no_float = true then "integers only"
  else "no fitting type"

/-- Modelled from the spec: the single-shot selection entry point.
Empty and non-numeric inspected data fall back immediately; otherwise
the selector picks a candidate and the packer builds the buffer; with no
candidate, `strict` raises `SelectionError` unless the data turns out to
be non-numeric (non-numeric data never raises), and otherwise the
original sequence is returned. -/
def selectArrayAt (vs : List Value) (pol : SelectionPolicy) :
    RKind → Except SelectionError Output
  | .empty => .ok (.fallbackSeq vs)
  | .nonNumeric => .ok (.fallbackSeq vs)
  | k =>
      match selectCandidate (observe vs (scanList pol true vs)) pol with
      | some c => pack vs c pol.strict
      | none =>
          if pol.strict then
            if vs.any isNonNumericV then .ok (.fallbackSeq vs)
            else .error { expected := expectedMsg k pol }
          else .ok (.fallbackSeq vs)

def select_array (vs : List Value) (pol : SelectionPolicy) :
    Except SelectionError Output :=
  selectArrayAt vs pol (observe vs (scanList pol true vs)).kind

/-- Modelled from the spec: `get_array` is the default-policy entry point
(its policy never raises, so the error branch is unreachable). -/
def get_array (vs : List Value) : Output :=
  match select_array vs {} with
  | .ok o => o
  | .error _ => .fallbackSeq vs

/-- Reason code of the diagnostics entry point. -/
inductive Reason
  | ok
  | empty
  | nonNumeric
  | noFittingType
deriving DecidableEq

/-- Modelled from the spec: the diagnostics record. -/
structure AnalyzeResult where
  count : Nat
  min : Option Extended
  max : Option Extended
  typecode : Option Code
  reason : Reason
deriving DecidableEq

/-- Modelled from the spec: the diagnostics record per observed kind. -/
def analyzeArrayAt (vs : List Value) (pol : SelectionPolicy) :
    RKind → AnalyzeResult
  | .empty =>
      { count := (observe vs (scanList pol true vs)).count, min := none,
        max := none, typecode := none, reason := .empty }
  | .nonNumeric =>
      { count := (observe vs (scanList pol true vs)).count, min := none,
        max := none, typecode := none, reason := .nonNumeric }
  | _ =>
      match selectCandidate (observe vs (scanList pol true vs)) pol with
      | some c =>
          { count := (observe vs (scanList pol true vs)).count,
            min := some (observe vs (scanList pol true vs)).mn,
            max := some (observe vs (scanList pol true vs)).mx,
            typecode := some c.code, reason := .ok }
      | none =>
          { count := (observe vs (scanList pol true vs)).count,
            min := some (observe vs (scanList pol true vs)).mn,
            max := some (observe vs (scanList pol true vs)).mx,
            typecode := none, reason := .noFittingType }

/-- Modelled from the spec: the read-only diagnostics entry point. -/
def analyze_array (vs : List Value) (pol : SelectionPolicy) : AnalyzeResult :=
  analyzeArrayAt vs pol (observe vs (scanList pol true vs)).kind

/-- State of the stream chunker: no type established yet, or the first
detected candidate frozen as the contract for all later windows. -/
inductive StreamSt
  | undetermined
  | fixed (c : Candidate)
deriving DecidableEq

/-- Split into consecutive windows of `k` elements (fuel-driven so the
definition evaluates by kernel reduction). -/
def chunkAux : Nat → List Value → Nat → List (List Value)
  | 0, _, _ => []
  | _, [], _ => []
  | fuel + 1, vs, k => vs.take k :: chunkAux fuel (vs.drop k) k

/-- Split a sequence into consecutive windows of `k` elements; a final
partial window is still emitted. -/
def chunks (vs : List Value) (k : Nat) : List (List Value) :=
  if k = 0 then [] else chunkAux vs.length vs k

/-- Modelled from the spec: process one window.  Undetermined: run
scanner and selector on the window alone; a found candidate packs the
window and freezes the state.  Fixed: check the window against exactly
the frozen candidate, pack when every value fits, degrade that window to
the fallback otherwise, never touching the frozen state. -/
def streamChunk (pol : SelectionPolicy) (st : StreamSt) (w : List Value) :
    Output × StreamSt :=
  match st with
  | .fixed c =>
      if w.all (fitsV c) then (.packed c.code (w.map (convert c)), st)
      else (.fallbackSeq w, st)
  | .undetermined =>
      match (observe w (scanList pol true w)).kind with
      | .empty => (.fallbackSeq w, .undetermined)
      | .nonNumeric => (.fallbackSeq w, .undetermined)
      | _ =>
          match selectCandidate (observe w (scanList pol true w)) pol with
          | some c =>
              (if w.all (fitsV c) then .packed c.code (w.map (convert c))
               else .fallbackSeq w, .fixed c)
          | none => (.fallbackSeq w, .undetermined)

/-- Fold the chunker state over the windows, emitting one output per
window. -/
def streamGo (pol : SelectionPolicy) : StreamSt → List (List Value) → List Output
  | _, [] => []
  | st, w :: ws =>
      (streamChunk pol st w).1 :: streamGo pol (streamChunk pol st w).2 ws

/-- Modelled from the spec: the streaming entry point. -/
def stream_array (vs : List Value) (chunk_size : Nat)
    (pol : SelectionPolicy) : List Output :=
  streamGo pol .undetermined (chunks vs chunk_size)

/-- Dtype argument of the numpy adapter (`"min"`, the four explicit
dtypes, or an unsupported string). -/
inductive NpDtype
  | dmin
  | dfloat32
  | dfloat64
  | dint64
  | duint64
  | unsupported (s : String)
deriving DecidableEq

/-- Result of the numpy adapter: a zero-copy `np.frombuffer` view over a
packed buffer, an object array copied from the fallback, or an
`np.asarray` conversion on the explicit-dtype path. -/
inductive NpArrayModel
  | frombuffer (dtype : Code) (values : List Value) (owndata : Bool)
  | objectArray (values : List Value)
  | asarray (dtype : NpDtype) (values : List Value)
deriving DecidableEq

/-- Errors the numpy adapter can raise: `ValueError` for an unsupported
dtype, or a propagated `SelectionError` from the engine. -/
inductive NpError
  | valueError (msg : String)
  | selectionError (e : SelectionError)
deriving DecidableEq

/-- Embedded from `src/toarray/numpy_compat.py`: `to_numpy`.  With
`dtype='min'` it runs `select_array` and wraps a packed buffer via
zero-copy `np.frombuffer` (the view does not own its data) or a fallback
via an object array; an explicit dtype goes through `np.asarray`; any
other dtype raises `ValueError`.  The `copy` parameter is accepted and,
as in the source, never read. -/
def to_numpy (iterable : List Value) (dtype : NpDtype) (copy : Bool)
    (pol : SelectionPolicy) : Except NpError NpArrayModel :=
  match dtype with
  | .dmin =>
      match select_array iterable pol with
      | .ok (.packed code ws) => .ok (.frombuffer code ws false)
      | .ok (.fallbackSeq ws) => .ok (.objectArray ws)
      | .error e => .error (.selectionError e)
  | .dfloat32 => .ok (.asarray .dfloat32 iterable)
  | .dfloat64 => .ok (.asarray .dfloat64 iterable)
  | .dint64 => .ok (.asarray .dint64 iterable)
  | .duint64 => .ok (.asarray .duint64 iterable)
  | .unsupported s => .error (.valueError ("Unsupported dtype: " ++ s))

/-- Shape invariant of the scanner's reachable range accumulators: the
range is the untouched initial `(+inf, -inf)` pair (in which case only
NaN values were inspected), an ordered finite pair, or has absorbed an
infinite endpoint; and a seen NaN implies the float kind flag. -/
def ShapeInv (st : ScanSt) : Prop :=
  ((st.mn = .posInf ∧ st.mx = .negInf ∧
      (st.count ≠ 0 → st.nonNum = false → st.sawNan = true)) ∨
    (∃ a b, st.mn = .fin a ∧ st.mx = .fin b ∧ a ≤ b) ∨
    st.mn = .negInf ∨ st.mx = .posInf) ∧
  (st.sawNan = true → st.seenFloat = true)

/-- Simulation relation between the early-exit scanner state and the
full scanner state over the same inputs: all classification fields agree;
the full state is never pinned; and once the early state pins, its frozen
range already fails every non-float64 candidate of the effective set
while the full state's range only ever widens around it. -/
def ScanRel (pol : SelectionPolicy) (e fl : ScanSt) : Prop :=
  e.count = fl.count ∧ e.nonNum = fl.nonNum ∧ e.seenFloat = fl.seenFloat ∧
  e.sawNan = fl.sawNan ∧ fl.pinned = false ∧ ShapeInv e ∧
  (if e.pinned = true then
    e.count ≠ 0 ∧
      (∀ c ∈ effectiveCands pol, ¬(c.code = Code.d) →
        coversB pol e.mn e.mx e.sawNan c = false) ∧
      Extended.ele fl.mn e.mn = true ∧ Extended.ele e.mx fl.mx = true
   else e.mn = fl.mn ∧ e.mx = fl.mx)

/-- Odd part of a natural number, fuel-driven so it evaluates by kernel
reduction. -/
def oddPartAux : Nat → Nat → Nat
  | 0, n => n
  | fuel + 1, n => if n % 2 = 0 ∧ n ≠ 0 then oddPartAux fuel (n / 2) else n

/-- Odd part of a natural number (0 for 0). -/
def oddPart (n : Nat) : Nat :=
  oddPartAux n n

/-- Whether a rational is exactly representable as a finite IEEE single:
magnitude at most `F32MAX`, denominator a power of two no larger than
`2^149`, and odd significand part below `2^24`. -/
def rep32 (x : ℚ) : Bool :=
  decide (x = 0) ||
    (decide (|x| ≤ F32MAX) && decide (oddPart x.den = 1) &&
      decide (x.den ≤ 2 ^ 149) && decide (oddPart x.num.natAbs < 2 ^ 24))

/-- Whether a value is representable exactly, with its own tag, in a
candidate's buffer: an in-range integer for an integer candidate; for
float candidates a float value, finite float32 entries needing exact
single-precision representability (NaN and the infinities are exact
IEEE values of both widths). -/
def exactIn (c : Candidate) (v : Value) : Bool :=
  if c.is_float then
    match v with
    | .float (.fin q) => c.code = .d || rep32 q
    | .float _ => true
    | _ => false
  else fitsV c v

/-- The integer range `[a, b]` as seen by one catalog candidate: integer
candidates need the range inside their value range, float32 needs both
magnitudes within `F32MAX`, float64 always covers. -/
def coversZ (c : Candidate) (a b : ℤ) : Bool :=
  if c.is_float then
    c.code = .d ||
      (decide (|(a : ℚ)| ≤ F32MAX) && decide (|(b : ℚ)| ≤ F32MAX))
  else decide (c.min_value ≤ (a : ℚ)) && decide ((b : ℚ) ≤ c.max_value)

/-- The unsigned integer typecode of a bit width. -/
def unsignedOf (w : Nat) : Code :=
  if w = 8 then .B else if w = 16 then .H else if w = 32 then .I else .Q

/-- The signed integer typecode of a bit width. -/
def signedOf (w : Nat) : Code :=
  if w = 8 then .b else if w = 16 then .h else if w = 32 then .i else .q

/-- The claim's own words, stated independently of the selector: the
narrowest (lowest-rank) catalog candidate whose range covers `[a, b]`,
taking the unsigned candidate of that width when `a >= 0` and the signed
one when `a < 0`. -/
def specNarrowest (a b : ℤ) : Option Code :=
  match catalog.find? (fun c => coversZ c a b) with
  | none => none
  | some c =>
      if c.is_float then some c.code
      else if a < 0 then some (signedOf c.bit_width)
      else some (unsignedOf c.bit_width)

/-- Minimum of the nonempty integer list `n :: ns`. -/
def listMinZ (n : ℤ) (ns : List ℤ) : ℤ :=
  ns.foldl min n

/-- Maximum of the nonempty integer list `n :: ns`. -/
def listMaxZ (n : ℤ) (ns : List ℤ) : ℤ :=
  ns.foldl max n

theorem F32MAX_nonneg : (0 : ℚ) ≤ F32MAX := by
  norm_num [F32MAX]

theorem rep32_le {x : ℚ} (h : rep32 x = true) : |x| ≤ F32MAX := by
  unfold rep32 at h
  simp only [Bool.or_eq_true, Bool.and_eq_true, decide_eq_true_eq] at h
  rcases h with h0 | hc
  · rw [h0]
    simpa using F32MAX_nonneg
  · exact hc.1.1.1

theorem exactIn_not_other {c : Candidate} {v : Value} (h : exactIn c v = true) :
    isNonNumericV v = false := by
  cases v with
  | int n => rfl
  | float x => rfl
  | other s =>
      exfalso
      unfold exactIn at h
      by_cases hf : c.is_float = true
      · simp [hf] at h
      · simp only [Bool.not_eq_true] at hf
        simp [hf, fitsV] at h

theorem exactIn_fits {c : Candidate} {v : Value} (h : exactIn c v = true) :
    fitsV c v = true := by
  unfold exactIn at h
  by_cases hf : c.is_float = true
  · rw [if_pos hf] at h
    cases v with
    | int n => simp at h
    | other s => simp at h
    | float x =>
        cases x with
        | fin q =>
            simp only [Bool.or_eq_true] at h
            rcases h with hd | hr
            · simp [fitsV, hf, hd]
            · simp [fitsV, hf, rep32_le hr]
        | posInf => simp [fitsV, hf]
        | negInf => simp [fitsV, hf]
        | nan => simp [fitsV, hf]
  · rw [if_neg hf] at h
    exact h

theorem exactIn_convert {c : Candidate} {v : Value} (h : exactIn c v = true) :
    convert c v = v := by
  unfold convert
  by_cases hf : c.is_float = true
  · rw [if_pos hf]
    cases v with
    | int n =>
        exfalso
        unfold exactIn at h
        rw [if_pos hf] at h
        simp at h
    | float x => rfl
    | other s => rfl
  · rw [if_neg hf]

theorem pack_ok_packed {vs : List Value} {c : Candidate} {s : Bool} {cd : Code}
    {ws : List Value} (h : pack vs c s = .ok (.packed cd ws)) :
    ws = vs.map (convert c) := by
  unfold pack at h
  split at h
  · simp at h
  · split at h
    · simp only [Except.ok.injEq, Output.packed.injEq] at h
      exact h.2.symm
    · split at h
      · simp at h
      · simp at h

/-- C2: for a sequence of values each exactly representable in the chosen
candidate, packing succeeds and the packed buffer's exposed values are
the original sequence unchanged, so reading back reproduces it exactly;
NaN is stored as NaN and still compares unequal to itself, and the
infinities round-trip exactly. -/
theorem c2_pack_roundtrip (vs : List Value) (c : Candidate) (strict : Bool)
    (h : ∀ v ∈ vs, exactIn c v = true) :
    pack vs c strict = .ok (.packed c.code vs) ∧
    readback (.packed c.code vs) = vs ∧
    veq (.float .nan) (.float .nan) = false := by
  refine ⟨?_, rfl, rfl⟩
  have hnn : vs.any isNonNumericV = false := by
    rw [List.any_eq_false]
    intro v hv
    simp [exactIn_not_other (h v hv)]
  have hfit : vs.all (fitsV c) = true := by
    rw [List.all_eq_true]
    intro v hv
    exact exactIn_fits (h v hv)
  have hconv : vs.map (convert c) = vs := by
    conv_rhs => rw [← List.map_id vs]
    exact List.map_congr_left (fun v hv => by rw [exactIn_convert (h v hv)]; rfl)
  unfold pack
  rw [if_neg (by simp [hnn]), if_pos (by simp [hfit]), hconv]

theorem c2_pack_roundtrip_witness :
    pack [Value.float .nan, Value.float .posInf, Value.float .negInf,
        Value.float (.fin (mkRat 3 2))] ⟨.f, false, true, 32, -F32MAX, F32MAX⟩ false =
      .ok (.packed .f [Value.float .nan, Value.float .posInf, Value.float .negInf,
        Value.float (.fin (mkRat 3 2))]) ∧
    veq (.float .nan) (.float .nan) = false := by
  have h := c2_pack_roundtrip
    [Value.float .nan, Value.float .posInf, Value.float .negInf,
      Value.float (.fin (mkRat 3 2))]
    ⟨.f, false, true, 32, -F32MAX, F32MAX⟩ false (by decide)
  exact ⟨h.1, h.2.2⟩

/-- C3: a sequence containing at least one non-numeric element always
comes back as the fallback sequence equal to the original, for every
policy (any sample size, strict or not): the scanner reports it as
non-numeric when it inspects it, and otherwise the packer detects it and
degrades, non-numeric data never being a strict failure. -/
theorem c3_non_numeric_fallback (vs : List Value) (pol : SelectionPolicy)
    (h : vs.any isNonNumericV = true) :
    select_array vs pol = .ok (.fallbackSeq vs) := by
  unfold select_array
  cases hk : (observe vs (scanList pol true vs)).kind
  · rfl
  · rfl
  all_goals
    simp only [selectArrayAt]
    cases hsel : selectCandidate (observe vs (scanList pol true vs)) pol with
    | some c => simp [pack, h]
    | none => by_cases hs : pol.strict = true <;> simp [hs, h]

theorem c3_non_numeric_fallback_witness :
    select_array [Value.int 1, Value.other "x", Value.int 3]
        { strict := true, sample_size := some 1 } =
      .ok (.fallbackSeq [Value.int 1, Value.other "x", Value.int 3]) :=
  c3_non_numeric_fallback _ _ (by decide)

/-- C4: once the stream chunker is in the `fixed` state, every later
window is checked against exactly that frozen candidate: a window whose
values all fit is emitted packed with the frozen typecode, any other
window is emitted as the fallback sequence, and the state is never reset
or widened; in particular `stream [0,1,2,-1,0,1]` with windows of 3
yields exactly a `uint8` buffer `[0,1,2]` then the fallback `[-1,0,1]`. -/
theorem c4_stream_fixed_contract :
    (∀ (pol : SelectionPolicy) (c : Candidate) (ws : List (List Value)),
      streamGo pol (.fixed c) ws =
        ws.map (fun w =>
          if w.all (fitsV c) then Output.packed c.code (w.map (convert c))
          else Output.fallbackSeq w)) ∧
    stream_array ([0, 1, 2, -1, 0, 1].map Value.int) 3 {} =
      [Output.packed .B ([0, 1, 2].map Value.int),
        Output.fallbackSeq ([-1, 0, 1].map Value.int)] := by
  constructor
  · intro pol c ws
    induction ws with
    | nil => rfl
    | cons w ws ih =>
        by_cases hw : w.all (fitsV c) = true <;>
          simp only [streamGo, streamChunk, hw, ih, if_true, if_false,
            Bool.false_eq_true, List.map_cons, if_pos, if_neg,
            not_false_eq_true, ite_true, ite_false]
  · decide

/-- C7: whenever single-shot selection packs, the buffer holds one
element per input element, whatever the policy (in particular whatever
`sample_size`): sampling bounds only the scan, never the output length. -/
theorem c7_sample_packs_all (vs : List Value) (pol : SelectionPolicy) (cd : Code)
    (ws : List Value) (h : select_array vs pol = .ok (.packed cd ws)) :
    ws.length = vs.length := by
  unfold select_array at h
  cases hk : (observe vs (scanList pol true vs)).kind <;> rw [hk] at h
  · simp [selectArrayAt] at h
  · simp [selectArrayAt] at h
  all_goals
    simp only [selectArrayAt] at h
    split at h
    · rw [pack_ok_packed h]
      exact List.length_map _ _
    · split at h
      · split at h
        · simp at h
        · simp at h
      · simp at h

theorem c7_sample_packs_all_witness :
    select_array ([0, 1, 2, 3].map Value.int) { sample_size := some 2 } =
      .ok (.packed .B ([0, 1, 2, 3].map Value.int)) ∧
    (([0, 1, 2, 3].map Value.int).map (convert ⟨.B, false, false, 8, 0, 255⟩)).length =
      ([0, 1, 2, 3].map Value.int).length := by
  refine ⟨by decide, ?_⟩
  exact c7_sample_packs_all ([0, 1, 2, 3].map Value.int) { sample_size := some 2 }
    .B _ (by decide)

/-- C10: `to_numpy` accepts its `copy` parameter but never reads it, so
for every input, dtype and policy the result with `copy := true` is the
result with `copy := false`. -/
theorem c10_to_numpy_ignores_copy (it : List Value) (dtype : NpDtype)
    (pol : SelectionPolicy) :
    to_numpy it dtype true pol = to_numpy it dtype false pol := rfl

theorem rangeUpd_count (st : ScanSt) (e : Extended) :
    (rangeUpd st e).count = st.count := by
  unfold rangeUpd
  split <;> rfl

theorem rangeUpd_nonNum (st : ScanSt) (e : Extended) :
    (rangeUpd st e).nonNum = st.nonNum := by
  unfold rangeUpd
  split <;> rfl

theorem rangeUpd_seenFloat (st : ScanSt) (e : Extended) :
    (rangeUpd st e).seenFloat = st.seenFloat := by
  unfold rangeUpd
  split <;> rfl

theorem rangeUpd_sawNan (st : ScanSt) (e : Extended) :
    (rangeUpd st e).sawNan = st.sawNan := by
  unfold rangeUpd
  split <;> rfl

theorem rangeUpd_pinned (st : ScanSt) (e : Extended) :
    (rangeUpd st e).pinned = st.pinned := by
  unfold rangeUpd
  split <;> rfl

theorem pinUpd_count (pol : SelectionPolicy) (b : Bool) (st : ScanSt) :
    (pinUpd pol b st).count = st.count := by
  unfold pinUpd
  split <;> rfl

theorem pinUpd_nonNum (pol : SelectionPolicy) (b : Bool) (st : ScanSt) :
    (pinUpd pol b st).nonNum = st.nonNum := by
  unfold pinUpd
  split <;> rfl

theorem pinUpd_seenFloat (pol : SelectionPolicy) (b : Bool) (st : ScanSt) :
    (pinUpd pol b st).seenFloat = st.seenFloat := by
  unfold pinUpd
  split <;> rfl

theorem pinUpd_sawNan (pol : SelectionPolicy) (b : Bool) (st : ScanSt) :
    (pinUpd pol b st).sawNan = st.sawNan := by
  unfold pinUpd
  split <;> rfl

theorem pinUpd_mn (pol : SelectionPolicy) (b : Bool) (st : ScanSt) :
    (pinUpd pol b st).mn = st.mn := by
  unfold pinUpd
  split <;> rfl

theorem pinUpd_mx (pol : SelectionPolicy) (b : Bool) (st : ScanSt) :
    (pinUpd pol b st).mx = st.mx := by
  unfold pinUpd
  split <;> rfl

theorem scanStep_nonNum_mono {pol : SelectionPolicy} {e : Bool} {st : ScanSt}
    {v : Value} (h : st.nonNum = true) :
    (scanStep pol e st v).nonNum = true := by
  unfold scanStep
  rw [if_pos h]
  exact h

theorem scanStep_nonNum_numeric {pol : SelectionPolicy} {e : Bool} {st : ScanSt}
    {v : Value} (hv : isNumericV v = true) :
    (scanStep pol e st v).nonNum = st.nonNum := by
  unfold scanStep
  split
  · rfl
  · split
    · cases v with
      | other s => simp [isNumericV, isNonNumericV] at hv
      | int n => simp [pinUpd_nonNum, rangeUpd_nonNum]
      | float x =>
          cases x <;> simp [pinUpd_nonNum, rangeUpd_nonNum]
    · rfl

theorem scanStep_seenFloat_mono {pol : SelectionPolicy} {e : Bool} {st : ScanSt}
    {v : Value} (h : st.seenFloat = true) :
    (scanStep pol e st v).seenFloat = true := by
  unfold scanStep
  split
  · exact h
  · split
    · cases v with
      | other s => simpa using h
      | int n => simp [pinUpd_seenFloat, rangeUpd_seenFloat]; exact h
      | float x =>
          cases x <;> simp [pinUpd_seenFloat, rangeUpd_seenFloat]
    · exact h

theorem scan_from_nonNum (pol : SelectionPolicy) (e : Bool) (vs : List Value)
    (st : ScanSt) (h : st.nonNum = true) :
    (vs.foldl (scanStep pol e) st).nonNum = true := by
  induction vs generalizing st with
  | nil => exact h
  | cons v vs ih => exact ih _ (scanStep_nonNum_mono h)

theorem scan_from_seenFloat (pol : SelectionPolicy) (e : Bool) (vs : List Value)
    (st : ScanSt) (h : st.seenFloat = true) :
    (vs.foldl (scanStep pol e) st).seenFloat = true := by
  induction vs generalizing st with
  | nil => exact h
  | cons v vs ih => exact ih _ (scanStep_seenFloat_mono h)

theorem scan_nonNum_false (pol : SelectionPolicy) (e : Bool) (vs : List Value)
    (st : ScanSt) (hst : st.nonNum = false)
    (h : ∀ v ∈ vs, isNumericV v = true) :
    (vs.foldl (scanStep pol e) st).nonNum = false := by
  induction vs generalizing st with
  | nil => exact hst
  | cons v vs ih =>
      rw [List.foldl_cons]
      refine ih _ ?_ (fun u hu => h u (List.mem_cons_of_mem _ hu))
      rw [scanStep_nonNum_numeric (h v (List.mem_cons_self _ _))]
      exact hst

theorem scan_nonNum_of_any (pol : SelectionPolicy) (e : Bool) (vs : List Value)
    (st : ScanSt) (hs : pol.sample_size = none)
    (h : vs.any isNonNumericV = true) :
    (vs.foldl (scanStep pol e) st).nonNum = true := by
  induction vs generalizing st with
  | nil => simp at h
  | cons v vs ih =>
      rw [List.foldl_cons]
      by_cases hn : st.nonNum = true
      · exact scan_from_nonNum pol e vs _ (scanStep_nonNum_mono hn)
      · rw [Bool.not_eq_true] at hn
        cases hv : isNonNumericV v with
        | true =>
            apply scan_from_nonNum
            cases v with
            | other s =>
                unfold scanStep
                rw [if_neg (by simp [hn]), if_pos (by simp [inspecting, hs])]
            | int n => simp [isNonNumericV] at hv
            | float x => simp [isNonNumericV] at hv
        | false =>
            apply ih
            rw [List.any_cons, hv] at h
            simpa using h

theorem isFloat_isNumeric {v : Value} (h : isFloatV v = true) :
    isNumericV v = true := by
  cases v <;> simp_all [isFloatV, isNumericV, isNonNumericV]

theorem scan_allfloat_seenFloat (pol : SelectionPolicy) (e : Bool) (v : Value)
    (vs : List Value) (hs : pol.sample_size = none)
    (hv : isFloatV v = true) :
    (scanList pol e (v :: vs)).seenFloat = true := by
  unfold scanList
  rw [List.foldl_cons]
  apply scan_from_seenFloat
  cases v with
  | float x =>
      unfold scanStep
      rw [if_neg (by simp), if_pos (by simp [inspecting, hs])]
      cases x <;> simp [pinUpd_seenFloat, rangeUpd_seenFloat]
  | int n => simp [isFloatV] at hv
  | other s => simp [isFloatV] at hv

theorem widthGroup_subset {cs : List Candidate} {w : Nat} {c : Candidate}
    (h : c ∈ widthGroup cs w) : c ∈ cs :=
  List.mem_of_mem_filter h

theorem mem_orderInts {pol : SelectionPolicy} {neg : Bool}
    {cands : List Candidate} {c : Candidate}
    (h : c ∈ orderInts pol neg cands) : c ∈ cands ∧ c.is_float = false := by
  have hints : ∀ x ∈ (if neg then (cands.filter (fun u => !u.is_float)).filter
      (fun u => u.signed) else cands.filter (fun u => !u.is_float)),
      x ∈ cands ∧ x.is_float = false := by
    intro x hx
    by_cases hn : neg = true
    · rw [if_pos hn] at hx
      have hx2 := List.mem_of_mem_filter hx
      refine ⟨List.mem_of_mem_filter hx2, ?_⟩
      simpa using (List.mem_filter.mp hx2).2
    · rw [if_neg hn] at hx
      refine ⟨List.mem_of_mem_filter hx, ?_⟩
      simpa using (List.mem_filter.mp hx).2
  unfold orderInts at h
  cases hp : pol.policy <;> rw [hp] at h
  · rcases List.mem_append.mp h with h | h
    rotate_left
    · by_cases hps : pol.prefer_signed = true <;>
        simp only [hps, if_true, if_false, List.mem_reverse, Bool.false_eq_true] at h <;>
        exact hints _ (widthGroup_subset h)
    rcases List.mem_append.mp h with h | h
    rotate_left
    · by_cases hps : pol.prefer_signed = true <;>
        simp only [hps, if_true, if_false, List.mem_reverse, Bool.false_eq_true] at h <;>
        exact hints _ (widthGroup_subset h)
    rcases List.mem_append.mp h with h | h <;>
      [skip; skip] <;>
      by_cases hps : pol.prefer_signed = true <;>
      simp only [hps, if_true, if_false, List.mem_reverse, Bool.false_eq_true] at h <;>
      exact hints _ (widthGroup_subset h)
  · exact hints _ h
  · rcases List.mem_append.mp h with h | h
    rotate_left
    · exact hints _ (widthGroup_subset h)
    rcases List.mem_append.mp h with h | h
    rotate_left
    · exact hints _ (widthGroup_subset h)
    rcases List.mem_append.mp h with h | h <;>
      exact hints _ (widthGroup_subset h)

theorem mem_orderCands {pol : SelectionPolicy} {neg : Bool}
    {cands : List Candidate} {c : Candidate}
    (h : c ∈ orderCands pol neg cands) : c ∈ cands := by
  unfold orderCands at h
  rcases List.mem_append.mp h with h | h
  · exact (mem_orderInts h).1
  · exact List.mem_of_mem_filter h

theorem orderCands_nil (pol : SelectionPolicy) (neg : Bool) :
    orderCands pol neg [] = [] := by
  unfold orderCands orderInts
  cases pol.policy <;> by_cases hn : neg = true <;>
    by_cases hps : pol.prefer_signed = true <;>
    simp [hn, hps, widthGroup]

theorem effectiveCands_nil {pol : SelectionPolicy}
    (h : candidateSlice pol = []) : effectiveCands pol = [] := by
  unfold effectiveCands
  rw [h]
  split <;> rfl

theorem selectCandidate_none_of_no_cands (obs : Observed)
    (pol : SelectionPolicy) (h : effectiveCands pol = []) :
    selectCandidate obs pol = none := by
  unfold selectCandidate
  cases obs.kind <;> simp [selectCandidateAt, h, orderCands_nil]

theorem select_array_of_kind {vs : List Value} {pol : SelectionPolicy}
    {k : RKind} (hk : (observe vs (scanList pol true vs)).kind = k) :
    select_array vs pol = selectArrayAt vs pol k := by
  unfold select_array
  rw [hk]

theorem analyze_array_of_kind {vs : List Value} {pol : SelectionPolicy}
    {k : RKind} (hk : (observe vs (scanList pol true vs)).kind = k) :
    analyze_array vs pol = analyzeArrayAt vs pol k := by
  unfold analyze_array
  rw [hk]

theorem isEmpty_cons (v : Value) (vs : List Value) :
    (v :: vs).isEmpty = false := rfl

theorem numeric_no_any {vs : List Value} (h : ∀ v ∈ vs, isNumericV v = true) :
    vs.any isNonNumericV = false := by
  rw [List.any_eq_false]
  intro v hv
  have := h v hv
  unfold isNumericV at this
  simp at this
  simp [this]

theorem observe_kind (vs : List Value) (st : ScanSt) :
    (observe vs st).kind =
      (if st.nonNum = true then RKind.nonNumeric
       else if vs.isEmpty = true then .empty
       else if st.seenFloat = true then .float else .integer) := rfl

theorem kind_numeric {vs : List Value} {pol : SelectionPolicy}
    (hne : vs ≠ []) (hnn : (scanList pol true vs).nonNum = false) :
    (observe vs (scanList pol true vs)).kind = .integer ∨
      (observe vs (scanList pol true vs)).kind = .float := by
  have hemp : vs.isEmpty = false := by
    cases vs with
    | nil => exact absurd rfl hne
    | cons v vs => rfl
  rw [observe_kind, hnn, hemp]
  by_cases hsf : (scanList pol true vs).seenFloat = true
  · right
    simp [hsf]
  · left
    rw [Bool.not_eq_true] at hsf
    simp [hsf]

theorem selectCandidate_float_none (obs : Observed) (pol : SelectionPolicy)
    (hk : obs.kind = .float) (hnf : pol.no_float = true) :
    selectCandidate obs pol = none := by
  unfold selectCandidate
  rw [hk]
  show (orderCands pol (hasNeg obs.mn) (effectiveCands pol)).find?
      (fun c => eligibleB .float c && coversB pol obs.mn obs.mx obs.sawNan c) = none
  apply List.find?_eq_none.mpr
  intro c hc
  have hcand : c ∈ effectiveCands pol := mem_orderCands hc
  have hcf : c.is_float = false := by
    unfold effectiveCands at hcand
    rw [if_pos hnf] at hcand
    simpa using (List.mem_filter.mp hcand).2
  simp [eligibleB, hcf]

/-- C5: `min_type`/`max_type` restrict the candidate set to exactly the
inclusive catalog-rank slice; an inverted slice yields the empty
candidate set, so that any non-empty numeric input raises
`SelectionError` under `strict` and falls back to the original sequence
otherwise. -/
theorem c5_rank_slice (pol : SelectionPolicy) (mnc mxc : Code)
    (hmn : pol.min_type = some mnc) (hmx : pol.max_type = some mxc) :
    candidateSlice pol =
      catalog.filter (fun c =>
        decide (rank mnc ≤ rank c.code) && decide (rank c.code ≤ rank mxc)) ∧
    (rank mxc < rank mnc →
      candidateSlice pol = [] ∧
      ∀ vs : List Value, vs ≠ [] → (∀ v ∈ vs, isNumericV v = true) →
        (pol.strict = true → ∃ err, select_array vs pol = .error err) ∧
        (pol.strict = false → select_array vs pol = .ok (.fallbackSeq vs))) := by
  constructor
  · unfold candidateSlice sliceLo sliceHi
    rw [hmn, hmx]
    cases mnc <;> cases mxc <;> rfl
  · intro hlt
    have hempty : candidateSlice pol = [] := by
      unfold candidateSlice sliceLo sliceHi
      rw [hmn, hmx]
      rw [show ((some mxc).map rank).getD 9 = rank mxc from rfl,
        show ((some mnc).map rank).getD 0 = rank mnc from rfl]
      rw [Nat.sub_eq_zero_of_le (by omega)]
      exact List.take_zero _
    refine ⟨hempty, ?_⟩
    intro vs hne hnum
    have hnn : (scanList pol true vs).nonNum = false :=
      scan_nonNum_false pol true vs {} rfl hnum
    have hsel : selectCandidate (observe vs (scanList pol true vs)) pol = none :=
      selectCandidate_none_of_no_cands _ _ (effectiveCands_nil hempty)
    have hany : vs.any isNonNumericV = false := numeric_no_any hnum
    rcases kind_numeric hne hnn with hk | hk
    all_goals
      rw [select_array_of_kind hk]
      simp only [selectArrayAt, hsel]
      constructor
      · intro hstrict
        rw [hstrict, hany]
        exact ⟨_, rfl⟩
      · intro hstrict
        rw [hstrict]
        rfl

theorem c5_rank_slice_witness :
    candidateSlice { min_type := some Code.d, max_type := some Code.b, strict := true } = [] ∧
    (∃ err, select_array [Value.int 1]
        { min_type := some Code.d, max_type := some Code.b, strict := true } =
      .error err) := by
  have h := c5_rank_slice
    { min_type := some Code.d, max_type := some Code.b, strict := true }
    Code.d Code.b rfl rfl
  have h2 := h.2 (by decide)
  refine ⟨h2.1, ?_⟩
  exact (h2.2 [Value.int 1] (by decide) (by decide)).1 rfl

/-- C6: for every non-empty pure-float input, selection with
`no_float := true` and `strict := true` raises a `SelectionError` whose
`expected` field is exactly `"integers only"`. -/
theorem c6_pure_float_no_float_strict (v : Value) (vs : List Value)
    (h : ∀ u ∈ v :: vs, isFloatV u = true) :
    select_array (v :: vs) { no_float := true, strict := true } =
      .error { expected := "integers only" } := by
  have hnum : ∀ u ∈ v :: vs, isNumericV u = true :=
    fun u hu => isFloat_isNumeric (h u hu)
  have hnn : (scanList { no_float := true, strict := true } true (v :: vs)).nonNum
      = false :=
    scan_nonNum_false _ true _ {} rfl hnum
  have hsf := scan_allfloat_seenFloat { no_float := true, strict := true } true
    v vs rfl (h v (List.mem_cons_self _ _))
  have hk : (observe (v :: vs)
      (scanList { no_float := true, strict := true } true (v :: vs))).kind =
      .float := by
    rw [observe_kind, hnn, hsf]
    simp
  have hsel := selectCandidate_float_none _ { no_float := true, strict := true } hk rfl
  rw [select_array_of_kind hk]
  simp only [selectArrayAt, hsel]
  simp [numeric_no_any hnum, expectedMsg]

theorem c6_pure_float_no_float_strict_witness :
    select_array [Value.float (.fin 1), Value.float (.fin 2)]
        { no_float := true, strict := true } =
      .error { expected := "integers only" } :=
  c6_pure_float_no_float_strict (Value.float (.fin 1)) [Value.float (.fin 2)]
    (by decide)

/-- C8: the diagnostics entry point reports, for the empty sequence,
count 0 with reason `empty`; for any sequence containing a non-numeric
element (default options), reason `nonNumeric` with no typecode; and for
a non-empty all-float sequence under `no_float`, reason
`noFittingType`. -/
theorem c8_analyze_reasons :
    ((analyze_array [] {}).count = 0 ∧ (analyze_array [] {}).reason = .empty) ∧
    (∀ vs : List Value, vs.any isNonNumericV = true →
      (analyze_array vs {}).reason = .nonNumeric ∧
        (analyze_array vs {}).typecode = none) ∧
    (∀ (v : Value) (vs : List Value), (∀ u ∈ v :: vs, isFloatV u = true) →
      (analyze_array (v :: vs) { no_float := true }).reason = .noFittingType) := by
  refine ⟨by constructor <;> rfl, ?_, ?_⟩
  · intro vs hany
    have hnn : (scanList {} true vs).nonNum = true :=
      scan_nonNum_of_any {} true vs {} rfl hany
    have hk : (observe vs (scanList {} true vs)).kind = .nonNumeric := by
      rw [observe_kind, hnn]
      simp
    rw [analyze_array_of_kind hk]
    exact ⟨rfl, rfl⟩
  · intro v vs h
    have hnum : ∀ u ∈ v :: vs, isNumericV u = true :=
      fun u hu => isFloat_isNumeric (h u hu)
    have hnn : (scanList { no_float := true } true (v :: vs)).nonNum = false :=
      scan_nonNum_false _ true _ {} rfl hnum
    have hsf := scan_allfloat_seenFloat { no_float := true } true v vs rfl
      (h v (List.mem_cons_self _ _))
    have hk : (observe (v :: vs)
        (scanList { no_float := true } true (v :: vs))).kind = .float := by
      rw [observe_kind, hnn, hsf]
      simp
    have hsel := selectCandidate_float_none _ { no_float := true } hk rfl
    rw [analyze_array_of_kind hk]
    simp only [analyzeArrayAt, hsel]

theorem ele_refl (x : Extended) : Extended.ele x x = true := by
  cases x <;> simp [Extended.ele]

theorem ele_trans {x y z : Extended} (h1 : Extended.ele x y = true)
    (h2 : Extended.ele y z = true) : Extended.ele x z = true := by
  cases x <;> cases y <;> cases z <;> simp_all [Extended.ele] <;> linarith

theorem ele_total (x y : Extended) :
    Extended.ele x y = true ∨ Extended.ele y x = true := by
  cases x <;> cases y <;> simp [Extended.ele] <;> exact le_total _ _

theorem ele_of_not {x y : Extended} (h : ¬Extended.ele x y = true) :
    Extended.ele y x = true := by
  rcases ele_total x y with h1 | h1
  · exact absurd h1 h
  · exact h1

theorem emin_le_left (x y : Extended) : Extended.ele (emin x y) x = true := by
  unfold emin
  split
  · exact ele_refl x
  · next h => exact ele_of_not h

theorem le_emax_left (x y : Extended) : Extended.ele x (emax x y) = true := by
  unfold emax
  split
  · next h => exact h
  · exact ele_refl x

theorem ele_fin_fin {a b : ℚ} (h : Extended.ele (.fin a) (.fin b) = true) :
    a ≤ b := by
  simpa [Extended.ele] using h

theorem ele_posInf_left {x : Extended} (h : Extended.ele .posInf x = true) :
    x = .posInf := by
  cases x <;> simp_all [Extended.ele]

theorem ele_negInf_right {x : Extended} (h : Extended.ele x .negInf = true) :
    x = .negInf := by
  cases x <;> simp_all [Extended.ele]

theorem emin_fin (a b : ℚ) : emin (.fin a) (.fin b) = .fin (min a b) := by
  unfold emin
  split
  · next h => rw [min_eq_left (ele_fin_fin h)]
  · next h =>
      rw [min_eq_right]
      exact ele_fin_fin (ele_of_not h)

theorem emax_fin (a b : ℚ) : emax (.fin a) (.fin b) = .fin (max a b) := by
  unfold emax
  split
  · next h => rw [max_eq_right (ele_fin_fin h)]
  · next h =>
      rw [max_eq_left]
      exact ele_fin_fin (ele_of_not h)

theorem coversB_fin_shape {pol : SelectionPolicy} {mn mx : Extended}
    {sn : Bool} {c : Candidate} (hd : ¬(c.is_float = true ∧ c.code = Code.d))
    (h : coversB pol mn mx sn c = true) :
    ∃ a b, mn = .fin a ∧ mx = .fin b := by
  unfold coversB at h
  by_cases hf : c.is_float = true
  · rw [if_pos hf] at h
    by_cases hcd : c.code = Code.d
    · exact absurd ⟨hf, hcd⟩ hd
    · rw [if_neg hcd] at h
      cases mn with
      | fin a =>
          cases mx with
          | fin b => exact ⟨a, b, rfl, rfl⟩
          | posInf => simp at h
          | negInf => simp at h
      | posInf => cases mx <;> simp at h
      | negInf => cases mx <;> simp at h
  · rw [if_neg hf] at h
    cases mn with
    | fin a =>
        cases mx with
        | fin b => exact ⟨a, b, rfl, rfl⟩
        | posInf => simp at h
        | negInf => simp at h
    | posInf => cases mx <;> simp at h
    | negInf => cases mx <;> simp at h

theorem coversB_shrink {pol : SelectionPolicy} {sn : Bool} {c : Candidate}
    {a b a2 b2 : ℚ} (h1 : a2 ≤ a) (h2 : b ≤ b2) (hab : a ≤ b)
    (h : coversB pol (.fin a2) (.fin b2) sn c = true) :
    coversB pol (.fin a) (.fin b) sn c = true := by
  unfold coversB at h ⊢
  by_cases hf : c.is_float = true
  · rw [if_pos hf] at h ⊢
    by_cases hcd : c.code = Code.d
    · rw [if_pos hcd]
    · rw [if_neg hcd] at h ⊢
      simp only [Bool.and_eq_true, decide_eq_true_eq] at h ⊢
      obtain ⟨hsn, ha2, hb2⟩ := h
      rw [abs_le] at ha2 hb2
      refine ⟨hsn, ?_, ?_⟩ <;>
        (rw [abs_le]; constructor <;> linarith [ha2.1, ha2.2, hb2.1, hb2.2])
  · rw [if_neg hf] at h ⊢
    simp only [Bool.and_eq_true, decide_eq_true_eq] at h ⊢
    exact ⟨le_trans h.1 h1, le_trans h2 h.2⟩

theorem coversB_nan_false {pol : SelectionPolicy} {mn mx : Extended}
    {sn : Bool} {c : Candidate} (hd : ¬(c.code = Code.d))
    (h : coversB pol mn mx sn c = false) :
    coversB pol mn mx true c = false := by
  unfold coversB at h ⊢
  by_cases hf : c.is_float = true
  · rw [if_pos hf] at h ⊢
    rw [if_neg hd] at h ⊢
    simp
  · rw [if_neg hf] at h ⊢
    exact h

theorem coversB_f_sn_true {pol : SelectionPolicy} {mn mx : Extended}
    {c : Candidate} (hf : c.is_float = true) (hd : ¬(c.code = Code.d)) :
    coversB pol mn mx true c = false := by
  unfold coversB
  rw [if_pos hf, if_neg hd]
  simp

theorem effectiveCands_subset {pol : SelectionPolicy} {c : Candidate}
    (h : c ∈ effectiveCands pol) : c ∈ catalog := by
  unfold effectiveCands at h
  have h2 : c ∈ candidateSlice pol := by
    split at h
    · exact List.mem_of_mem_filter h
    · exact h
  unfold candidateSlice at h2
  exact List.drop_subset _ _ (List.take_subset _ _ h2)

theorem catalog_nonfloat_ne_d {c : Candidate} (hc : c ∈ catalog)
    (hf : c.is_float = false) : ¬(c.code = Code.d) := by
  simp only [catalog, List.mem_cons, List.not_mem_nil, or_false] at hc
  rcases hc with rfl|rfl|rfl|rfl|rfl|rfl|rfl|rfl|rfl|rfl <;> simp_all

theorem catalog_float_cases {c : Candidate} (hc : c ∈ catalog)
    (hf : c.is_float = true) :
    c = ⟨.f, false, true, 32, -F32MAX, F32MAX⟩ ∨
      c = ⟨.d, false, true, 64, -F64MAX, F64MAX⟩ := by
  simp only [catalog, List.mem_cons, List.not_mem_nil, or_false] at hc
  rcases hc with rfl|rfl|rfl|rfl|rfl|rfl|rfl|rfl|rfl|rfl <;> simp_all

theorem find?_ext {α : Type} {p q : α → Bool} :
    ∀ l : List α, (∀ x ∈ l, p x = q x) → l.find? p = l.find? q := by
  intro l
  induction l with
  | nil => intro _; rfl
  | cons x l ih =>
      intro h
      have hx := h x (List.mem_cons_self _ _)
      rw [List.find?_cons, List.find?_cons, hx]
      cases q x
      · exact ih (fun y hy => h y (List.mem_cons_of_mem _ hy))
      · rfl

theorem find?_append_none {α : Type} {p : α → Bool} {l1 l2 : List α}
    (h : ∀ x ∈ l1, p x = false) : (l1 ++ l2).find? p = l2.find? p := by
  induction l1 with
  | nil => rfl
  | cons x l ih =>
      rw [List.cons_append, List.find?_cons, h x (List.mem_cons_self _ _)]
      exact ih (fun y hy => h y (List.mem_cons_of_mem _ hy))

theorem pinUpd_false (pol : SelectionPolicy) (st : ScanSt) :
    pinUpd pol false st = st := by
  unfold pinUpd
  simp

theorem shape_update {mn mx : Extended} (x : Extended)
    (h : (mn = .posInf ∧ mx = .negInf) ∨
      (∃ a b, mn = .fin a ∧ mx = .fin b ∧ a ≤ b) ∨
      mn = .negInf ∨ mx = .posInf) :
    (∃ a b, emin mn x = .fin a ∧ emax mx x = .fin b ∧ a ≤ b) ∨
      emin mn x = .negInf ∨ emax mx x = .posInf := by
  rcases h with ⟨h1, h2⟩ | ⟨a, b, h1, h2, hab⟩ | h1 | h1
  · subst h1
    subst h2
    cases x with
    | fin q =>
        refine Or.inl ⟨q, q, ?_, ?_, le_refl q⟩
        · unfold emin Extended.ele
          simp
        · unfold emax Extended.ele
          simp
    | posInf =>
        refine Or.inr (Or.inr ?_)
        unfold emax Extended.ele
        simp
    | negInf =>
        refine Or.inr (Or.inl ?_)
        unfold emin Extended.ele
        simp
  · subst h1
    subst h2
    cases x with
    | fin q =>
        refine Or.inl ⟨min a q, max b q, emin_fin a q, emax_fin b q, ?_⟩
        exact le_trans (min_le_left a q) (le_trans hab (le_max_left b q))
    | posInf =>
        refine Or.inr (Or.inr ?_)
        unfold emax
        rw [if_pos (show Extended.ele (.fin b) .posInf = true from rfl)]
    | negInf =>
        refine Or.inr (Or.inl ?_)
        unfold emin
        rw [if_neg (show ¬Extended.ele (.fin a) .negInf = true from by
          simp [Extended.ele])]
  · subst h1
    refine Or.inr (Or.inl ?_)
    unfold emin
    rw [if_pos (show Extended.ele .negInf x = true from by cases x <;> rfl)]
  · subst h1
    refine Or.inr (Or.inr ?_)
    unfold emax
    split
    · next hh => rw [ele_posInf_left hh]
    · rfl

theorem pinCond_sem {pol : SelectionPolicy} {st : ScanSt}
    (h : pinCond pol st = true) :
    st.count ≠ 0 ∧ ∀ c ∈ effectiveCands pol, ¬(c.code = Code.d) →
      coversB pol st.mn st.mx st.sawNan c = false := by
  unfold pinCond at h
  simp only [Bool.and_eq_true, bne_iff_ne, List.all_eq_true] at h
  refine ⟨h.1, ?_⟩
  intro c hc hd
  have := h.2 c hc
  simp only [Bool.or_eq_true, decide_eq_true_eq] at this
  rcases this with h1 | h1
  · exact absurd h1 hd
  · simpa using h1

theorem scanRel_rangeStep {pol : SelectionPolicy} {e fl : ScanSt}
    (hc : e.count = fl.count) (hn : e.nonNum = fl.nonNum)
    (hsf : e.seenFloat = fl.seenFloat) (hsn : e.sawNan = fl.sawNan)
    (hfp : fl.pinned = false) (hshape : ShapeInv e)
    (hrest : if e.pinned = true then
        e.count ≠ 0 ∧
          (∀ c ∈ effectiveCands pol, ¬(c.code = Code.d) →
            coversB pol e.mn e.mx e.sawNan c = false) ∧
          Extended.ele fl.mn e.mn = true ∧ Extended.ele e.mx fl.mx = true
      else e.mn = fl.mn ∧ e.mx = fl.mx)
    (x : Extended) (s s2 : Bool) (hs2 : s = s2)
    (hs : e.seenFloat = true → s = true) :
    ScanRel pol
      (pinUpd pol true (rangeUpd { e with count := e.count + 1, seenFloat := s } x))
      (pinUpd pol false (rangeUpd { fl with count := fl.count + 1, seenFloat := s2 } x)) := by
  subst hs2
  obtain ⟨hshape1, hshape2⟩ := hshape
  rw [pinUpd_false]
  have hflr : rangeUpd { fl with count := fl.count + 1, seenFloat := s } x =
      { fl with
          count := fl.count + 1, seenFloat := s, mn := emin fl.mn x,
          mx := emax fl.mx x } := by
    unfold rangeUpd
    rw [if_neg (by simp [hfp])]
  rw [hflr]
  by_cases hp : e.pinned = true
  · rw [if_pos hp] at hrest
    obtain ⟨hcnt, hsem, hele1, hele2⟩ := hrest
    have her : rangeUpd { e with count := e.count + 1, seenFloat := s } x =
        { e with count := e.count + 1, seenFloat := s } := by
      unfold rangeUpd
      rw [if_pos (by simpa using hp)]
    rw [her]
    have hpu : pinUpd pol true { e with count := e.count + 1, seenFloat := s } =
        { e with count := e.count + 1, seenFloat := s } := by
      unfold pinUpd
      rw [if_neg (by simp [hp])]
    rw [hpu]
    refine ⟨by simp [hc], hn, rfl, hsn, hfp, ⟨?_, fun hx => hs (hshape2 hx)⟩, ?_⟩
    · rcases hshape1 with ⟨h1, h2, h3⟩ | h2 | h2 | h2
      · exact Or.inl ⟨h1, h2, fun _ hx => h3 hcnt hx⟩
      · exact Or.inr (Or.inl h2)
      · exact Or.inr (Or.inr (Or.inl h2))
      · exact Or.inr (Or.inr (Or.inr h2))
    · rw [if_pos (show ({ e with count := e.count + 1, seenFloat := s } :
        ScanSt).pinned = true from hp)]
      refine ⟨by simp, hsem, ?_, ?_⟩
      · exact ele_trans (emin_le_left fl.mn x) hele1
      · exact ele_trans hele2 (le_emax_left fl.mx x)
  · rw [if_neg hp] at hrest
    obtain ⟨hmneq, hmxeq⟩ := hrest
    rw [Bool.not_eq_true] at hp
    have her : rangeUpd { e with count := e.count + 1, seenFloat := s } x =
        { e with
            count := e.count + 1, seenFloat := s, mn := emin e.mn x,
            mx := emax e.mx x } := by
      unfold rangeUpd
      rw [if_neg (by simp [hp])]
    rw [her]
    have hshapeN : ShapeInv { e with
        count := e.count + 1, seenFloat := s, mn := emin e.mn x,
        mx := emax e.mx x } := by
      constructor
      · have h4 : (e.mn = .posInf ∧ e.mx = .negInf) ∨
            (∃ a b, e.mn = .fin a ∧ e.mx = .fin b ∧ a ≤ b) ∨
            e.mn = .negInf ∨ e.mx = .posInf := by
          rcases hshape1 with ⟨h1, h2, _⟩ | h2 | h2 | h2
          · exact Or.inl ⟨h1, h2⟩
          · exact Or.inr (Or.inl h2)
          · exact Or.inr (Or.inr (Or.inl h2))
          · exact Or.inr (Or.inr (Or.inr h2))
        rcases shape_update x h4 with h5 | h5 | h5
        · exact Or.inr (Or.inl h5)
        · exact Or.inr (Or.inr (Or.inl h5))
        · exact Or.inr (Or.inr (Or.inr h5))
      · exact fun hx => hs (hshape2 hx)
    set e1 : ScanSt := { e with
      count := e.count + 1, seenFloat := s, mn := emin e.mn x,
      mx := emax e.mx x } with he1
    by_cases hpc : pinCond pol e1 = true
    · have hpu : pinUpd pol true e1 = { e1 with pinned := true } := by
        unfold pinUpd
        rw [if_pos (by rw [hpc]; simp [he1, hp])]
      rw [hpu]
      obtain ⟨hcnt1, hsem1⟩ := pinCond_sem hpc
      refine ⟨by simp [he1, hc], by simp [he1, hn], by simp [he1], by simp [he1, hsn],
        hfp, ⟨hshapeN.1, hshapeN.2⟩, ?_⟩
      rw [if_pos (show ({ e1 with pinned := true } : ScanSt).pinned = true from rfl)]
      refine ⟨by simp [he1], hsem1, ?_, ?_⟩
      · rw [show ({ e1 with pinned := true } : ScanSt).mn = emin e.mn x from rfl,
          hmneq]
        exact ele_refl _
      · rw [show ({ e1 with pinned := true } : ScanSt).mx = emax e.mx x from rfl,
          hmxeq]
        exact ele_refl _
    · have hpu : pinUpd pol true e1 = e1 := by
        unfold pinUpd
        rw [if_neg (by simp [hpc])]
      rw [hpu]
      refine ⟨by simp [he1, hc], by simp [he1, hn], by simp [he1], by simp [he1, hsn],
        hfp, hshapeN, ?_⟩
      rw [if_neg (show ¬(e1.pinned = true) from by simp [he1, hp])]
      exact ⟨by simp [he1, hmneq], by simp [he1, hmxeq]⟩

theorem scanRel_nanStep {pol : SelectionPolicy} {e fl : ScanSt}
    (hc : e.count = fl.count) (hn : e.nonNum = fl.nonNum)
    (hsf : e.seenFloat = fl.seenFloat) (hsn : e.sawNan = fl.sawNan)
    (hfp : fl.pinned = false) (hshape : ShapeInv e)
    (hrest : if e.pinned = true then
        e.count ≠ 0 ∧
          (∀ c ∈ effectiveCands pol, ¬(c.code = Code.d) →
            coversB pol e.mn e.mx e.sawNan c = false) ∧
          Extended.ele fl.mn e.mn = true ∧ Extended.ele e.mx fl.mx = true
      else e.mn = fl.mn ∧ e.mx = fl.mx) :
    ScanRel pol
      (pinUpd pol true
        { e with count := e.count + 1, seenFloat := true, sawNan := true })
      (pinUpd pol false
        { fl with count := fl.count + 1, seenFloat := true, sawNan := true }) := by
  obtain ⟨hshape1, hshape2⟩ := hshape
  rw [pinUpd_false]
  by_cases hp : e.pinned = true
  · rw [if_pos hp] at hrest
    obtain ⟨hcnt, hsem, hele1, hele2⟩ := hrest
    have hpu : pinUpd pol true
        { e with count := e.count + 1, seenFloat := true, sawNan := true } =
        { e with count := e.count + 1, seenFloat := true, sawNan := true } := by
      unfold pinUpd
      rw [if_neg (by simp [hp])]
    rw [hpu]
    refine ⟨by simp [hc], hn, rfl, rfl, hfp, ⟨?_, fun _ => rfl⟩, ?_⟩
    · rcases hshape1 with ⟨h1, h2, _⟩ | h2 | h2 | h2
      · exact Or.inl ⟨h1, h2, fun _ _ => rfl⟩
      · exact Or.inr (Or.inl h2)
      · exact Or.inr (Or.inr (Or.inl h2))
      · exact Or.inr (Or.inr (Or.inr h2))
    · rw [if_pos (show ({ e with
        count := e.count + 1, seenFloat := true,
        sawNan := true } : ScanSt).pinned = true from hp)]
      refine ⟨by simp, ?_, hele1, hele2⟩
      intro c hcm hd
      exact coversB_nan_false hd (hsem c hcm hd)
  · rw [if_neg hp] at hrest
    obtain ⟨hmneq, hmxeq⟩ := hrest
    rw [Bool.not_eq_true] at hp
    set e1 : ScanSt :=
      { e with count := e.count + 1, seenFloat := true, sawNan := true } with he1
    have hshapeN : ShapeInv e1 := by
      constructor
      · rcases hshape1 with ⟨h1, h2, _⟩ | h2 | h2 | h2
        · exact Or.inl ⟨h1, h2, fun _ _ => rfl⟩
        · exact Or.inr (Or.inl h2)
        · exact Or.inr (Or.inr (Or.inl h2))
        · exact Or.inr (Or.inr (Or.inr h2))
      · exact fun _ => rfl
    by_cases hpc : pinCond pol e1 = true
    · have hpu : pinUpd pol true e1 = { e1 with pinned := true } := by
        unfold pinUpd
        rw [if_pos (by rw [hpc]; simp [he1, hp])]
      rw [hpu]
      obtain ⟨hcnt1, hsem1⟩ := pinCond_sem hpc
      refine ⟨by simp [he1, hc], by simp [he1, hn], by simp [he1],
        by simp [he1], hfp, ⟨hshapeN.1, hshapeN.2⟩, ?_⟩
      rw [if_pos (show ({ e1 with pinned := true } : ScanSt).pinned = true
        from rfl)]
      refine ⟨by simp [he1], hsem1, ?_, ?_⟩
      · rw [show ({ e1 with pinned := true } : ScanSt).mn = e.mn from rfl, hmneq]
        exact ele_refl _
      · rw [show ({ e1 with pinned := true } : ScanSt).mx = e.mx from rfl, hmxeq]
        exact ele_refl _
    · have hpu : pinUpd pol true e1 = e1 := by
        unfold pinUpd
        rw [if_neg (by simp [hpc])]
      rw [hpu]
      refine ⟨by simp [he1, hc], by simp [he1, hn], by simp [he1],
        by simp [he1], hfp, hshapeN, ?_⟩
      rw [if_neg (show ¬(e1.pinned = true) from by simp [he1, hp])]
      exact ⟨by simp [he1, hmneq], by simp [he1, hmxeq]⟩

theorem scanRel_step {pol : SelectionPolicy} {e fl : ScanSt} (v : Value)
    (h : ScanRel pol e fl) :
    ScanRel pol (scanStep pol true e v) (scanStep pol false fl v) := by
  obtain ⟨hc, hn, hsf, hsn, hfp, hshape, hrest⟩ := h
  unfold scanStep
  by_cases hnn : e.nonNum = true
  · rw [if_pos hnn, if_pos (show fl.nonNum = true from by rw [← hn]; exact hnn)]
    exact ⟨hc, hn, hsf, hsn, hfp, hshape, hrest⟩
  · rw [if_neg hnn,
      if_neg (show ¬(fl.nonNum = true) from by rw [← hn]; exact hnn)]
    have hinsp : inspecting pol fl = inspecting pol e := by
      unfold inspecting
      cases pol.sample_size <;> simp [hc]
    by_cases hin : inspecting pol e = true
    · rw [if_pos hin,
        if_pos (show inspecting pol fl = true from by rw [hinsp]; exact hin)]
      obtain ⟨hshape1, hshape2⟩ := hshape
      cases v with
      | other s =>
          refine ⟨by simp [hc], rfl, hsf, hsn, hfp, ⟨?_, hshape2⟩, ?_⟩
          · rcases hshape1 with ⟨h1, h2, _⟩ | h2 | h2 | h2
            · exact Or.inl ⟨h1, h2, fun _ hx => Bool.noConfusion hx⟩
            · exact Or.inr (Or.inl h2)
            · exact Or.inr (Or.inr (Or.inl h2))
            · exact Or.inr (Or.inr (Or.inr h2))
          · by_cases hp : e.pinned = true
            · rw [if_pos hp] at hrest
              rw [if_pos (show ({ e with
                nonNum := true, count := e.count + 1 } : ScanSt).pinned = true
                from hp)]
              obtain ⟨hcnt, hsem, hele1, hele2⟩ := hrest
              exact ⟨by simp, hsem, hele1, hele2⟩
            · rw [if_neg hp] at hrest
              rw [if_neg (show ¬(({ e with
                nonNum := true, count := e.count + 1 } : ScanSt).pinned = true)
                from hp)]
              exact hrest
      | int n =>
          exact scanRel_rangeStep hc hn hsf hsn hfp ⟨hshape1, hshape2⟩ hrest
            (.fin (n : ℚ)) e.seenFloat fl.seenFloat hsf (fun hh => hh)
      | float x =>
          cases x with
          | fin q =>
              exact scanRel_rangeStep hc hn hsf hsn hfp ⟨hshape1, hshape2⟩ hrest
                (.fin q) true true rfl (fun _ => rfl)
          | posInf =>
              exact scanRel_rangeStep hc hn hsf hsn hfp ⟨hshape1, hshape2⟩ hrest
                .posInf true true rfl (fun _ => rfl)
          | negInf =>
              exact scanRel_rangeStep hc hn hsf hsn hfp ⟨hshape1, hshape2⟩ hrest
                .negInf true true rfl (fun _ => rfl)
          | nan =>
              exact scanRel_nanStep hc hn hsf hsn hfp ⟨hshape1, hshape2⟩ hrest
    · rw [if_neg hin,
        if_neg (show ¬(inspecting pol fl = true) from by rw [hinsp]; exact hin)]
      exact ⟨hc, hn, hsf, hsn, hfp, hshape, hrest⟩

theorem scanRel_fold {pol : SelectionPolicy} (vs : List Value) :
    ∀ {e fl : ScanSt}, ScanRel pol e fl →
      ScanRel pol (vs.foldl (scanStep pol true) e)
        (vs.foldl (scanStep pol false) fl) := by
  induction vs with
  | nil => intro e fl h; exact h
  | cons v vs ih =>
      intro e fl h
      exact ih (scanRel_step v h)

theorem scanRel_scanList (pol : SelectionPolicy) (vs : List Value) :
    ScanRel pol (scanList pol true vs) (scanList pol false vs) := by
  unfold scanList
  apply scanRel_fold
  refine ⟨rfl, rfl, rfl, rfl, rfl,
    ⟨Or.inl ⟨rfl, rfl, fun hx _ => absurd rfl hx⟩,
      fun hx => Bool.noConfusion hx⟩, ?_⟩
  rw [if_neg (show ¬(({} : ScanSt).pinned = true) from by simp)]
  exact ⟨rfl, rfl⟩

theorem find?_pinned_eq (pol : SelectionPolicy) (k : RKind)
    (hk : k = RKind.integer ∨ k = RKind.float)
    (mnE mxE mnF mxF : Extended) (sn : Bool)
    (hsem : ∀ c ∈ effectiveCands pol, ¬(c.code = Code.d) →
      coversB pol mnE mxE sn c = false)
    (hele1 : Extended.ele mnF mnE = true) (hele2 : Extended.ele mxE mxF = true)
    (hshE : (mnE = .posInf ∧ mxE = .negInf ∧ sn = true) ∨
      (∃ a b, mnE = .fin a ∧ mxE = .fin b ∧ a ≤ b) ∨
      mnE = .negInf ∨ mxE = .posInf)
    (hkint : k = RKind.integer → sn = false) :
    (orderCands pol (hasNeg mnE) (effectiveCands pol)).find?
        (fun c => eligibleB k c && coversB pol mnE mxE sn c) =
      (orderCands pol (hasNeg mnF) (effectiveCands pol)).find?
        (fun c => eligibleB k c && coversB pol mnF mxF sn c) := by
  have hcovF : ∀ c ∈ effectiveCands pol, ¬(c.code = Code.d) →
      (c.is_float = false → sn = false) →
      coversB pol mnF mxF sn c = false := by
    intro c hcm hd hsn2
    by_cases hF : coversB pol mnF mxF sn c = true
    swap
    · rw [Bool.not_eq_true] at hF
      exact hF
    exfalso
    have hE := hsem c hcm hd
    have hnotd : ¬(c.is_float = true ∧ c.code = Code.d) := fun hh => hd hh.2
    obtain ⟨a2, b2, hFa, hFb⟩ := coversB_fin_shape hnotd hF
    by_cases hsnt : sn = true
    · by_cases hf : c.is_float = true
      · rw [hFa, hFb, hsnt] at hF
        rw [coversB_f_sn_true hf hd] at hF
        exact Bool.noConfusion hF
      · rw [Bool.not_eq_true] at hf
        exact Bool.noConfusion ((hsn2 hf).symm.trans hsnt)
    · rw [Bool.not_eq_true] at hsnt
      rcases hshE with ⟨_, _, h3⟩ | ⟨a, b, ha, hb, hab⟩ | h1 | h1
      · exact Bool.noConfusion (hsnt.symm.trans h3)
      · rw [hFa, ha] at hele1
        rw [hFb, hb] at hele2
        rw [ha, hb] at hE
        rw [hFa, hFb] at hF
        rw [coversB_shrink (ele_fin_fin hele1) (ele_fin_fin hele2) hab hF] at hE
        exact Bool.noConfusion hE
      · rw [h1] at hele1
        rw [hFa] at hele1
        exact Extended.noConfusion (ele_negInf_right hele1)
      · rw [h1] at hele2
        rw [hFb] at hele2
        exact Extended.noConfusion (ele_posInf_left hele2)
  have hfail : ∀ (mn2 mx2 : Extended),
      (∀ c ∈ effectiveCands pol, ¬(c.code = Code.d) →
        (c.is_float = false → sn = false) →
        coversB pol mn2 mx2 sn c = false) →
      ∀ neg2, ∀ c ∈ orderInts pol neg2 (effectiveCands pol),
        (eligibleB k c && coversB pol mn2 mx2 sn c) = false := by
    intro mn2 mx2 hcov neg2 c hcm
    obtain ⟨hcs, hcf⟩ := mem_orderInts hcm
    have hd : ¬(c.code = Code.d) :=
      catalog_nonfloat_ne_d (effectiveCands_subset hcs) hcf
    rcases hk with hk4 | hk4
    · subst hk4
      rw [hcov c hcs hd (fun _ => hkint rfl)]
      simp
    · subst hk4
      simp [eligibleB, hcf]
  have hfloatseq : ∀ c ∈ (effectiveCands pol).filter (fun c => c.is_float),
      (eligibleB k c && coversB pol mnE mxE sn c) =
        (eligibleB k c && coversB pol mnF mxF sn c) := by
    intro c hcm
    have hcs := List.mem_of_mem_filter hcm
    have hcf : c.is_float = true := by
      simpa using (List.mem_filter.mp hcm).2
    rcases catalog_float_cases (effectiveCands_subset hcs) hcf with rfl | rfl
    · have hd : ¬((⟨.f, false, true, 32, -F32MAX, F32MAX⟩ : Candidate).code =
          Code.d) := by simp
      rw [hsem _ hcs hd, hcovF _ hcs hd (fun hh => Bool.noConfusion hh)]
    · have h1 : coversB pol mnE mxE sn
          ⟨.d, false, true, 64, -F64MAX, F64MAX⟩ = true := by
        simp [coversB]
      have h2 : coversB pol mnF mxF sn
          ⟨.d, false, true, 64, -F64MAX, F64MAX⟩ = true := by
        simp [coversB]
      rw [h1, h2]
  unfold orderCands
  rw [find?_append_none (hfail mnE mxE (fun c hcs hd _ => hsem c hcs hd)
      (hasNeg mnE)),
    find?_append_none (hfail mnF mxF hcovF (hasNeg mnF))]
  exact find?_ext _ hfloatseq

theorem seenFloat_of_sawNan {pol : SelectionPolicy} {vs : List Value}
    (h : ShapeInv (scanList pol true vs)) :
    (scanList pol true vs).seenFloat = false →
      (scanList pol true vs).sawNan = false := by
  intro hsf
  cases hx : (scanList pol true vs).sawNan
  · rfl
  · rw [h.2 hx] at hsf
    exact Bool.noConfusion hsf

theorem sel_early_eq_full (pol : SelectionPolicy) (vs : List Value) :
    selectCandidate (observe vs (scanList pol true vs)) pol =
      selectCandidate (observe vs (scanList pol false vs)) pol := by
  obtain ⟨hc, hn, hsf, hsn, hfp, hshape, hrest⟩ := scanRel_scanList pol vs
  obtain ⟨hshape1, hshape2⟩ := hshape
  by_cases hp : (scanList pol true vs).pinned = true
  swap
  · rw [if_neg hp] at hrest
    have hobs : observe vs (scanList pol true vs) =
        observe vs (scanList pol false vs) := by
      unfold observe
      rw [hc, hn, hsf, hsn, hrest.1, hrest.2]
    rw [hobs]
  · rw [if_pos hp] at hrest
    obtain ⟨hcnt, hsem, hele1, hele2⟩ := hrest
    have hkeq : (observe vs (scanList pol false vs)).kind =
        (observe vs (scanList pol true vs)).kind := by
      rw [observe_kind, observe_kind, hn, hsf]
    unfold selectCandidate
    rw [hkeq]
    have hkk4 := observe_kind vs (scanList pol true vs)
    cases hk4 : (observe vs (scanList pol true vs)).kind with
    | empty => rfl
    | nonNumeric => rfl
    | integer =>
        rw [hk4] at hkk4
        have hnnE : (scanList pol true vs).nonNum = false := by
          by_cases h1 : (scanList pol true vs).nonNum = true
          · rw [if_pos h1] at hkk4
            exact absurd hkk4.symm (by simp)
          · rwa [Bool.not_eq_true] at h1
        have hsfE : (scanList pol true vs).seenFloat = false := by
          rw [if_neg (by simp [hnnE])] at hkk4
          by_cases h2 : vs.isEmpty = true
          · rw [if_pos h2] at hkk4
            exact absurd hkk4.symm (by simp)
          · rw [if_neg h2] at hkk4
            by_cases h3 : (scanList pol true vs).seenFloat = true
            · rw [if_pos h3] at hkk4
              exact absurd hkk4.symm (by simp)
            · rwa [Bool.not_eq_true] at h3
        have hsnE : (scanList pol true vs).sawNan = false :=
          seenFloat_of_sawNan ⟨hshape1, hshape2⟩ hsfE
        show (orderCands pol (hasNeg (scanList pol true vs).mn)
            (effectiveCands pol)).find? (fun c => eligibleB .integer c &&
            coversB pol (scanList pol true vs).mn (scanList pol true vs).mx
              (scanList pol true vs).sawNan c) =
          (orderCands pol (hasNeg (scanList pol false vs).mn)
            (effectiveCands pol)).find? (fun c => eligibleB .integer c &&
            coversB pol (scanList pol false vs).mn (scanList pol false vs).mx
              (scanList pol false vs).sawNan c)
        rw [← hsn]
        apply find?_pinned_eq pol .integer (Or.inl rfl) _ _ _ _ _ hsem hele1 hele2
        · rcases hshape1 with ⟨h1, h2, h3⟩ | h2 | h2 | h2
          · exact Or.inl ⟨h1, h2, h3 hcnt hnnE⟩
          · exact Or.inr (Or.inl h2)
          · exact Or.inr (Or.inr (Or.inl h2))
          · exact Or.inr (Or.inr (Or.inr h2))
        · exact fun _ => hsnE
    | float =>
        rw [hk4] at hkk4
        have hnnE : (scanList pol true vs).nonNum = false := by
          by_cases h1 : (scanList pol true vs).nonNum = true
          · rw [if_pos h1] at hkk4
            exact absurd hkk4.symm (by simp)
          · rwa [Bool.not_eq_true] at h1
        show (orderCands pol (hasNeg (scanList pol true vs).mn)
            (effectiveCands pol)).find? (fun c => eligibleB .float c &&
            coversB pol (scanList pol true vs).mn (scanList pol true vs).mx
              (scanList pol true vs).sawNan c) =
          (orderCands pol (hasNeg (scanList pol false vs).mn)
            (effectiveCands pol)).find? (fun c => eligibleB .float c &&
            coversB pol (scanList pol false vs).mn (scanList pol false vs).mx
              (scanList pol false vs).sawNan c)
        rw [← hsn]
        apply find?_pinned_eq pol .float (Or.inr rfl) _ _ _ _ _ hsem hele1 hele2
        · rcases hshape1 with ⟨h1, h2, h3⟩ | h2 | h2 | h2
          · exact Or.inl ⟨h1, h2, h3 hcnt hnnE⟩
          · exact Or.inr (Or.inl h2)
          · exact Or.inr (Or.inr (Or.inl h2))
          · exact Or.inr (Or.inr (Or.inr h2))
        · exact fun hh => absurd hh (by simp)

/-- C9: for every input sequence and every policy, the candidate the
selector chooses from the early-exit scan equals the candidate chosen
from the scan of every element it would otherwise inspect, with the same
bounds: the early exit never changes the selected candidate. -/
theorem c9_early_exit_pure (pol : SelectionPolicy) (vs : List Value) :
    selectCandidate (observe vs (scanList pol true vs)) pol =
      selectCandidate (observe vs (scanList pol false vs)) pol :=
  sel_early_eq_full pol vs

theorem scanFull_ints (ns : List ℤ) (st : ScanSt)
    (hnn : st.nonNum = false) (hpin : st.pinned = false) :
    (ns.map Value.int).foldl (scanStep {} false) st =
      { st with
        count := st.count + ns.length,
        mn := ns.foldl (fun m (k : ℤ) => emin m (.fin (k : ℚ))) st.mn,
        mx := ns.foldl (fun m (k : ℤ) => emax m (.fin (k : ℚ))) st.mx } := by
  induction ns generalizing st with
  | nil => simp
  | cons k ns ih =>
      rw [List.map_cons, List.foldl_cons]
      have hstep : scanStep {} false st (Value.int k) =
          { st with
            count := st.count + 1, mn := emin st.mn (.fin (k : ℚ)),
            mx := emax st.mx (.fin (k : ℚ)) } := by
        unfold scanStep
        rw [if_neg (by simp [hnn]), if_pos (show inspecting {} st = true from rfl)]
        show pinUpd {} false
          (rangeUpd { st with count := st.count + 1 } (.fin (k : ℚ))) = _
        rw [pinUpd_false]
        unfold rangeUpd
        rw [if_neg (by simp [hpin])]
      rw [hstep, ih _ (by simp [hnn]) (by simp [hpin])]
      simp [List.foldl_cons]
      omega

theorem foldl_emin_fin (ns : List ℤ) (a : ℚ) :
    ns.foldl (fun m (k : ℤ) => emin m (.fin (k : ℚ))) (.fin a) =
      .fin (ns.foldl (fun m (k : ℤ) => min m (k : ℚ)) a) := by
  induction ns generalizing a with
  | nil => rfl
  | cons k ns ih => rw [List.foldl_cons, List.foldl_cons, emin_fin, ih]

theorem foldl_emax_fin (ns : List ℤ) (a : ℚ) :
    ns.foldl (fun m (k : ℤ) => emax m (.fin (k : ℚ))) (.fin a) =
      .fin (ns.foldl (fun m (k : ℤ) => max m (k : ℚ)) a) := by
  induction ns generalizing a with
  | nil => rfl
  | cons k ns ih => rw [List.foldl_cons, List.foldl_cons, emax_fin, ih]

theorem foldl_minQ_cast (ns : List ℤ) (a : ℤ) :
    ns.foldl (fun m (k : ℤ) => min m (k : ℚ)) (a : ℚ) =
      ((ns.foldl min a : ℤ) : ℚ) := by
  induction ns generalizing a with
  | nil => rfl
  | cons k ns ih =>
      rw [List.foldl_cons, List.foldl_cons, ← ih]
      congr 1
      push_cast
      rfl

theorem foldl_maxQ_cast (ns : List ℤ) (a : ℤ) :
    ns.foldl (fun m (k : ℤ) => max m (k : ℚ)) (a : ℚ) =
      ((ns.foldl max a : ℤ) : ℚ) := by
  induction ns generalizing a with
  | nil => rfl
  | cons k ns ih =>
      rw [List.foldl_cons, List.foldl_cons, ← ih]
      congr 1
      push_cast
      rfl

theorem foldl_min_le_init (ns : List ℤ) (a : ℤ) : ns.foldl min a ≤ a := by
  induction ns generalizing a with
  | nil => exact le_refl a
  | cons k ns ih => exact le_trans (ih (min a k)) (min_le_left a k)

theorem init_le_foldl_max (ns : List ℤ) (a : ℤ) : a ≤ ns.foldl max a := by
  induction ns generalizing a with
  | nil => exact le_refl a
  | cons k ns ih => exact le_trans (le_max_left a k) (ih (max a k))

theorem foldl_min_le_mem (ns : List ℤ) (a : ℤ) : ∀ k ∈ ns, ns.foldl min a ≤ k := by
  induction ns generalizing a with
  | nil =>
      intro k hk
      simp at hk
  | cons j ns ih =>
      intro k hk
      rw [List.foldl_cons]
      rcases List.mem_cons.mp hk with rfl | hk
      · exact le_trans (foldl_min_le_init ns (min a k)) (min_le_right a k)
      · exact ih _ k hk

theorem mem_le_foldl_max (ns : List ℤ) (a : ℤ) : ∀ k ∈ ns, k ≤ ns.foldl max a := by
  induction ns generalizing a with
  | nil =>
      intro k hk
      simp at hk
  | cons j ns ih =>
      intro k hk
      rw [List.foldl_cons]
      rcases List.mem_cons.mp hk with rfl | hk
      · exact le_trans (le_max_right a k) (init_le_foldl_max ns (max a k))
      · exact ih _ k hk

theorem listMinZ_le (n : ℤ) (ns : List ℤ) : ∀ k ∈ n :: ns, listMinZ n ns ≤ k := by
  intro k hk
  rcases List.mem_cons.mp hk with rfl | hk
  · exact foldl_min_le_init ns k
  · exact foldl_min_le_mem ns n k hk

theorem le_listMaxZ (n : ℤ) (ns : List ℤ) : ∀ k ∈ n :: ns, k ≤ listMaxZ n ns := by
  intro k hk
  rcases List.mem_cons.mp hk with rfl | hk
  · exact init_le_foldl_max ns k
  · exact mem_le_foldl_max ns n k hk

theorem fits_of_covers {pol : SelectionPolicy} {c : Candidate} {a b : ℚ} {k : ℤ}
    (h : coversB pol (.fin a) (.fin b) false c = true)
    (h1 : a ≤ (k : ℚ)) (h2 : (k : ℚ) ≤ b) : fitsV c (.int k) = true := by
  unfold coversB at h
  unfold fitsV
  by_cases hf : c.is_float = true
  · rw [if_pos hf] at h ⊢
    by_cases hd : c.code = Code.d
    · simp [hd]
    · rw [if_neg hd] at h
      simp only [Bool.and_eq_true, decide_eq_true_eq] at h
      obtain ⟨_, ha, hb⟩ := h
      rw [abs_le] at ha hb
      simp only [Bool.or_eq_true, decide_eq_true_eq]
      right
      rw [abs_le]
      constructor <;> linarith [ha.1, ha.2, hb.1, hb.2]
  · rw [if_neg hf] at h ⊢
    simp only [Bool.and_eq_true, decide_eq_true_eq] at h ⊢
    exact ⟨le_trans h.1 h1, le_trans h2 h.2⟩

theorem selectCandidate_covers {obs : Observed} {pol : SelectionPolicy}
    {c : Candidate} (h : selectCandidate obs pol = some c) :
    coversB pol obs.mn obs.mx obs.sawNan c = true := by
  unfold selectCandidate at h
  cases hk : obs.kind <;> rw [hk] at h
  · exact absurd h (by simp [selectCandidateAt])
  · exact absurd h (by simp [selectCandidateAt])
  all_goals
    have hp := List.find?_some h
    simp only [Bool.and_eq_true] at hp
    exact hp.2

theorem pred_eq_coversZ (a b : ℤ) (c : Candidate) :
    (eligibleB .integer c && coversB {} (.fin (a : ℚ)) (.fin (b : ℚ)) false c) =
      coversZ c a b := by
  unfold eligibleB coversB coversZ
  by_cases hf : c.is_float = true
  · rw [if_pos hf, if_pos hf]
    by_cases hd : c.code = Code.d
    · simp [hd]
    · simp [hd]
  · rw [if_neg hf, if_neg hf]
    simp

theorem specNarrowest_eq_map (a b : ℤ) :
    specNarrowest a b = (catalog.find? (fun c => coversZ c a b)).map
      (fun c => if c.is_float then c.code
        else if a < 0 then signedOf c.bit_width
        else unsignedOf c.bit_width) := by
  unfold specNarrowest
  cases hf : catalog.find? (fun c => coversZ c a b)
  · rfl
  · simp only [Option.map_some]
    split_ifs <;> simp_all

theorem find?_cons_congr {α : Type} {p : α → Bool} (x : α) {l1 l2 : List α}
    (h : l1.find? p = l2.find? p) :
    (x :: l1).find? p = (x :: l2).find? p := by
  rw [List.find?_cons, List.find?_cons]
  cases p x
  · exact h
  · rfl

theorem find?_cons_drop {α : Type} (p : α → Bool) {y : α} (l : List α)
    (hy : p y = false) : (y :: l).find? p = l.find? p := by
  rw [List.find?_cons, hy]

theorem find?_swap_pair {p : Candidate → Bool} {adj : Candidate → Code}
    (u s : Candidate) {r1 r2 : List Candidate}
    (himp : p s = true → p u = true)
    (hadjs : adj s = u.code) (hadju : adj u = u.code)
    (hrec : (r1.find? p).map Candidate.code = (r2.find? p).map adj) :
    ((u :: s :: r1).find? p).map Candidate.code =
      ((s :: u :: r2).find? p).map adj := by
  cases hu : p u
  · have hs : p s = false := by
      cases hs2 : p s
      · rfl
      · rw [himp hs2] at hu
        exact Bool.noConfusion hu
    rw [find?_cons_drop p _ hu, find?_cons_drop p _ hs, find?_cons_drop p _ hs,
      find?_cons_drop p _ hu]
    exact hrec
  · cases hs2 : p s
    · rw [List.find?_cons_of_pos _ hu, find?_cons_drop p _ hs2,
        List.find?_cons_of_pos _ hu]
      simp [hadju]
    · rw [List.find?_cons_of_pos _ hu, List.find?_cons_of_pos _ hs2]
      simp [hadjs]

theorem find?_map_adj_tail {p : Candidate → Bool} {adj : Candidate → Code}
    (tail : List Candidate) (h : ∀ c ∈ tail, adj c = c.code) :
    (tail.find? p).map Candidate.code = (tail.find? p).map adj := by
  cases hf : tail.find? p with
  | none => rfl
  | some c =>
      have hc := List.mem_of_find?_eq_some hf
      simp [h c hc]

theorem find?_isSome_of_mem (p : Candidate → Bool) (l : List Candidate)
    (c : Candidate) (hc : c ∈ l) (hp : p c = true) :
    ∃ x, l.find? p = some x := by
  cases hf : l.find? p with
  | some x => exact ⟨x, rfl⟩
  | none =>
      rw [List.find?_eq_none] at hf
      exact absurd hp (hf c hc)

theorem orderCands_default_nonneg :
    orderCands {} false (effectiveCands {}) =
      [⟨.B, false, false, 8, 0, 255⟩,
       ⟨.b, true, false, 8, -128, 127⟩,
       ⟨.H, false, false, 16, 0, 65535⟩,
       ⟨.h, true, false, 16, -32768, 32767⟩,
       ⟨.I, false, false, 32, 0, 4294967295⟩,
       ⟨.i, true, false, 32, -2147483648, 2147483647⟩,
       ⟨.Q, false, false, 64, 0, 18446744073709551615⟩,
       ⟨.q, true, false, 64, -9223372036854775808, 9223372036854775807⟩,
       ⟨.f, false, true, 32, -F32MAX, F32MAX⟩,
       ⟨.d, false, true, 64, -F64MAX, F64MAX⟩] := rfl

theorem orderCands_default_neg :
    orderCands {} true (effectiveCands {}) =
      [⟨.b, true, false, 8, -128, 127⟩,
       ⟨.h, true, false, 16, -32768, 32767⟩,
       ⟨.i, true, false, 32, -2147483648, 2147483647⟩,
       ⟨.q, true, false, 64, -9223372036854775808, 9223372036854775807⟩,
       ⟨.f, false, true, 32, -F32MAX, F32MAX⟩,
       ⟨.d, false, true, 64, -F64MAX, F64MAX⟩] := rfl

theorem catalog_cons_form :
    catalog =
      ⟨.b, true, false, 8, -128, 127⟩ ::
      ⟨.B, false, false, 8, 0, 255⟩ ::
      ⟨.h, true, false, 16, -32768, 32767⟩ ::
      ⟨.H, false, false, 16, 0, 65535⟩ ::
      ⟨.i, true, false, 32, -2147483648, 2147483647⟩ ::
      ⟨.I, false, false, 32, 0, 4294967295⟩ ::
      ⟨.q, true, false, 64, -9223372036854775808, 9223372036854775807⟩ ::
      ⟨.Q, false, false, 64, 0, 18446744073709551615⟩ ::
      ⟨.f, false, true, 32, -F32MAX, F32MAX⟩ ::
      ⟨.d, false, true, 64, -F64MAX, F64MAX⟩ :: [] := rfl

theorem coversZ_d (a b : ℤ) :
    coversZ ⟨.d, false, true, 64, -F64MAX, F64MAX⟩ a b = true := by
  simp [coversZ]

theorem sel_default_ints (a b : ℤ) (obs : Observed)
    (hk : obs.kind = .integer) (hmn : obs.mn = .fin (a : ℚ))
    (hmx : obs.mx = .fin (b : ℚ)) (hsn : obs.sawNan = false) :
    ∃ c, selectCandidate obs {} = some c ∧ specNarrowest a b = some c.code := by
  unfold selectCandidate
  rw [hk]
  show ∃ c, (orderCands {} (hasNeg obs.mn) (effectiveCands {})).find?
      (fun c => eligibleB .integer c &&
        coversB {} obs.mn obs.mx obs.sawNan c) = some c ∧
    specNarrowest a b = some c.code
  rw [hmn, hmx, hsn]
  have hpred : (fun c => eligibleB .integer c &&
      coversB {} (.fin (a : ℚ)) (.fin (b : ℚ)) false c) =
      (fun c => coversZ c a b) :=
    funext (pred_eq_coversZ a b)
  rw [hpred]
  by_cases h0 : a < 0
  · have haq : (a : ℚ) < 0 := by exact_mod_cast h0
    have hneg : hasNeg (Extended.fin (a : ℚ)) = true := by
      simp [hasNeg, haq]
    rw [hneg, orderCands_default_neg]
    have hEq : (([⟨.b, true, false, 8, -128, 127⟩,
        ⟨.h, true, false, 16, -32768, 32767⟩,
        ⟨.i, true, false, 32, -2147483648, 2147483647⟩,
        ⟨.q, true, false, 64, -9223372036854775808, 9223372036854775807⟩,
        ⟨.f, false, true, 32, -F32MAX, F32MAX⟩,
        ⟨.d, false, true, 64, -F64MAX, F64MAX⟩] :
          List Candidate).find? (fun c => coversZ c a b)).map Candidate.code =
        (catalog.find? (fun c => coversZ c a b)).map
          (fun c => if c.is_float then c.code
            else if a < 0 then signedOf c.bit_width
            else unsignedOf c.bit_width) := by
      have hunc : ∀ (cd : Code) (w : Nat) (hi : ℚ),
          coversZ ⟨cd, false, false, w, 0, hi⟩ a b = false := by
        intro cd w hi
        simp only [coversZ, if_neg (by simp : ¬((⟨cd, false, false, w, 0, hi⟩ :
          Candidate).is_float = true))]
        simp [not_le.mpr haq]
      rw [catalog_cons_form]
      rw [show (⟨.b, true, false, 8, -128, 127⟩ ::
          ⟨.B, false, false, 8, 0, 255⟩ ::
          ⟨.h, true, false, 16, -32768, 32767⟩ ::
          ⟨.H, false, false, 16, 0, 65535⟩ ::
          ⟨.i, true, false, 32, -2147483648, 2147483647⟩ ::
          ⟨.I, false, false, 32, 0, 4294967295⟩ ::
          ⟨.q, true, false, 64, -9223372036854775808, 9223372036854775807⟩ ::
          ⟨.Q, false, false, 64, 0, 18446744073709551615⟩ ::
          ⟨.f, false, true, 32, -F32MAX, F32MAX⟩ ::
          ⟨.d, false, true, 64, -F64MAX, F64MAX⟩ :: []).find?
            (fun c => coversZ c a b) =
          ([⟨.b, true, false, 8, -128, 127⟩,
            ⟨.h, true, false, 16, -32768, 32767⟩,
            ⟨.i, true, false, 32, -2147483648, 2147483647⟩,
            ⟨.q, true, false, 64, -9223372036854775808, 9223372036854775807⟩,
            ⟨.f, false, true, 32, -F32MAX, F32MAX⟩,
            ⟨.d, false, true, 64, -F64MAX, F64MAX⟩] :
              List Candidate).find? (fun c => coversZ c a b) from by
        apply find?_cons_congr
        rw [find?_cons_drop (fun c => coversZ c a b) _ (hunc .B 8 255)]
        apply find?_cons_congr
        rw [find?_cons_drop (fun c => coversZ c a b) _ (hunc .H 16 65535)]
        apply find?_cons_congr
        rw [find?_cons_drop (fun c => coversZ c a b) _ (hunc .I 32 4294967295)]
        apply find?_cons_congr
        rw [find?_cons_drop (fun c => coversZ c a b) _ (hunc .Q 64 18446744073709551615)]]
      apply find?_map_adj_tail
      intro c hc
      simp only [List.mem_cons, List.not_mem_nil, or_false] at hc
      rcases hc with rfl|rfl|rfl|rfl|rfl|rfl <;> simp [h0, signedOf]
    obtain ⟨c, hcs⟩ := find?_isSome_of_mem (fun c => coversZ c a b) _ _
      (show (⟨.d, false, true, 64, -F64MAX, F64MAX⟩ : Candidate) ∈
        [⟨.b, true, false, 8, -128, 127⟩,
         ⟨.h, true, false, 16, -32768, 32767⟩,
         ⟨.i, true, false, 32, -2147483648, 2147483647⟩,
         ⟨.q, true, false, 64, -9223372036854775808, 9223372036854775807⟩,
         ⟨.f, false, true, 32, -F32MAX, F32MAX⟩,
         ⟨.d, false, true, 64, -F64MAX, F64MAX⟩] from by simp)
      (coversZ_d a b)
    refine ⟨c, hcs, ?_⟩
    rw [specNarrowest_eq_map, ← hEq, hcs]
    rfl
  · have haq : (0 : ℚ) ≤ (a : ℚ) := by exact_mod_cast not_lt.mp h0
    have hneg : hasNeg (Extended.fin (a : ℚ)) = false := by
      simp [hasNeg, not_lt.mpr haq]
    rw [hneg, orderCands_default_nonneg]
    have hEq : (([⟨.B, false, false, 8, 0, 255⟩,
        ⟨.b, true, false, 8, -128, 127⟩,
        ⟨.H, false, false, 16, 0, 65535⟩,
        ⟨.h, true, false, 16, -32768, 32767⟩,
        ⟨.I, false, false, 32, 0, 4294967295⟩,
        ⟨.i, true, false, 32, -2147483648, 2147483647⟩,
        ⟨.Q, false, false, 64, 0, 18446744073709551615⟩,
        ⟨.q, true, false, 64, -9223372036854775808, 9223372036854775807⟩,
        ⟨.f, false, true, 32, -F32MAX, F32MAX⟩,
        ⟨.d, false, true, 64, -F64MAX, F64MAX⟩] :
          List Candidate).find? (fun c => coversZ c a b)).map Candidate.code =
        (catalog.find? (fun c => coversZ c a b)).map
          (fun c => if c.is_float then c.code
            else if a < 0 then signedOf c.bit_width
            else unsignedOf c.bit_width) := by
      have himp : ∀ (cs cu : Code) (w : Nat) (los his hiu : ℚ),
          los < 0 → his ≤ hiu →
          coversZ ⟨cs, true, false, w, los, his⟩ a b = true →
          coversZ ⟨cu, false, false, w, 0, hiu⟩ a b = true := by
        intro cs cu w los his hiu _ hh hcov
        simp only [coversZ, if_neg (by simp : ¬((⟨cs, true, false, w, los, his⟩ :
            Candidate).is_float = true)),
          if_neg (by simp : ¬((⟨cu, false, false, w, 0, hiu⟩ :
            Candidate).is_float = true)),
          Bool.and_eq_true, decide_eq_true_eq] at hcov ⊢
        exact ⟨haq, le_trans hcov.2 hh⟩
      rw [catalog_cons_form]
      apply find?_swap_pair _ _
        (himp .b .B 8 (-128) 127 255 (by norm_num) (by norm_num))
        (by simp [h0, unsignedOf]) (by simp [h0, unsignedOf])
      apply find?_swap_pair _ _
        (himp .h .H 16 (-32768) 32767 65535 (by norm_num) (by norm_num))
        (by simp [h0, unsignedOf]) (by simp [h0, unsignedOf])
      apply find?_swap_pair _ _
        (himp .i .I 32 (-2147483648) 2147483647 4294967295 (by norm_num)
          (by norm_num))
        (by simp [h0, unsignedOf]) (by simp [h0, unsignedOf])
      apply find?_swap_pair _ _
        (himp .q .Q 64 (-9223372036854775808) 9223372036854775807
          18446744073709551615 (by norm_num) (by norm_num))
        (by simp [h0, unsignedOf]) (by simp [h0, unsignedOf])
      apply find?_map_adj_tail
      intro c hc
      simp only [List.mem_cons, List.not_mem_nil, or_false] at hc
      rcases hc with rfl|rfl <;> simp
    obtain ⟨c, hcs⟩ := find?_isSome_of_mem (fun c => coversZ c a b) _ _
      (show (⟨.d, false, true, 64, -F64MAX, F64MAX⟩ : Candidate) ∈
        [⟨.B, false, false, 8, 0, 255⟩,
         ⟨.b, true, false, 8, -128, 127⟩,
         ⟨.H, false, false, 16, 0, 65535⟩,
         ⟨.h, true, false, 16, -32768, 32767⟩,
         ⟨.I, false, false, 32, 0, 4294967295⟩,
         ⟨.i, true, false, 32, -2147483648, 2147483647⟩,
         ⟨.Q, false, false, 64, 0, 18446744073709551615⟩,
         ⟨.q, true, false, 64, -9223372036854775808, 9223372036854775807⟩,
         ⟨.f, false, true, 32, -F32MAX, F32MAX⟩,
         ⟨.d, false, true, 64, -F64MAX, F64MAX⟩] from by simp)
      (coversZ_d a b)
    refine ⟨c, hcs, ?_⟩
    rw [specNarrowest_eq_map, ← hEq, hcs]
    rfl

/-- C1: for every non-empty sequence of integers, the single-shot
selection entry point under the default policy returns a packed buffer
whose typecode is the narrowest catalog candidate covering the
sequence's [min, max], taking the unsigned candidate of that width when
min is nonnegative and the signed one when min is negative — exactly the
code `specNarrowest` computes from the claim's wording. -/
theorem c1_default_narrowest (n : ℤ) (ns : List ℤ) :
    ∃ cd ws, select_array ((n :: ns).map Value.int) {} =
        Except.ok (Output.packed cd ws) ∧
      specNarrowest (listMinZ n ns) (listMaxZ n ns) = some cd := by
  have hsc : scanList {} false ((n :: ns).map Value.int) =
      { ({} : ScanSt) with
        count := ({} : ScanSt).count + (n :: ns).length,
        mn := (n :: ns).foldl (fun m (k : ℤ) => emin m (.fin (k : ℚ)))
          ({} : ScanSt).mn,
        mx := (n :: ns).foldl (fun m (k : ℤ) => emax m (.fin (k : ℚ)))
          ({} : ScanSt).mx } :=
    scanFull_ints (n :: ns) {} rfl rfl
  have hmnF : (scanList {} false ((n :: ns).map Value.int)).mn =
      .fin ((listMinZ n ns : ℤ) : ℚ) := by
    rw [hsc]
    show (n :: ns).foldl (fun m (k : ℤ) => emin m (.fin (k : ℚ))) .posInf = _
    rw [List.foldl_cons]
    show ns.foldl (fun m (k : ℤ) => emin m (.fin (k : ℚ))) (.fin (n : ℚ)) = _
    rw [foldl_emin_fin, foldl_minQ_cast]
    rfl
  have hmxF : (scanList {} false ((n :: ns).map Value.int)).mx =
      .fin ((listMaxZ n ns : ℤ) : ℚ) := by
    rw [hsc]
    show (n :: ns).foldl (fun m (k : ℤ) => emax m (.fin (k : ℚ))) .negInf = _
    rw [List.foldl_cons]
    show ns.foldl (fun m (k : ℤ) => emax m (.fin (k : ℚ))) (.fin (n : ℚ)) = _
    rw [foldl_emax_fin, foldl_maxQ_cast]
    rfl
  have hnnF : (scanList {} false ((n :: ns).map Value.int)).nonNum = false := by
    rw [hsc]
  have hsfF : (scanList {} false ((n :: ns).map Value.int)).seenFloat = false := by
    rw [hsc]
  have hsnF : (scanList {} false ((n :: ns).map Value.int)).sawNan = false := by
    rw [hsc]
  obtain ⟨hcR, hnR, hsfR, hsnR, -, -, -⟩ :=
    scanRel_scanList {} ((n :: ns).map Value.int)
  have hnnT : (scanList {} true ((n :: ns).map Value.int)).nonNum = false :=
    hnR.trans hnnF
  have hsfT : (scanList {} true ((n :: ns).map Value.int)).seenFloat = false :=
    hsfR.trans hsfF
  have hkT : (observe ((n :: ns).map Value.int)
      (scanList {} true ((n :: ns).map Value.int))).kind = .integer := by
    rw [observe_kind, hnnT, hsfT]
    rfl
  have hkF : (observe ((n :: ns).map Value.int)
      (scanList {} false ((n :: ns).map Value.int))).kind = .integer := by
    rw [observe_kind, hnnF, hsfF]
    rfl
  have hmnO : (observe ((n :: ns).map Value.int)
      (scanList {} false ((n :: ns).map Value.int))).mn =
      .fin ((listMinZ n ns : ℤ) : ℚ) := hmnF
  have hmxO : (observe ((n :: ns).map Value.int)
      (scanList {} false ((n :: ns).map Value.int))).mx =
      .fin ((listMaxZ n ns : ℤ) : ℚ) := hmxF
  have hsnO : (observe ((n :: ns).map Value.int)
      (scanList {} false ((n :: ns).map Value.int))).sawNan = false := hsnF
  obtain ⟨c, hcsel, hspec⟩ := sel_default_ints (listMinZ n ns) (listMaxZ n ns)
    (observe ((n :: ns).map Value.int)
      (scanList {} false ((n :: ns).map Value.int)))
    hkF hmnO hmxO hsnO
  have hselT : selectCandidate (observe ((n :: ns).map Value.int)
      (scanList {} true ((n :: ns).map Value.int))) {} = some c :=
    (sel_early_eq_full {} ((n :: ns).map Value.int)).trans hcsel
  have hcov : coversB {} (.fin ((listMinZ n ns : ℤ) : ℚ))
      (.fin ((listMaxZ n ns : ℤ) : ℚ)) false c = true := by
    have h0 := selectCandidate_covers hcsel
    rw [hmnO, hmxO, hsnO] at h0
    exact h0
  have hany : ((n :: ns).map Value.int).any isNonNumericV = false := by
    apply numeric_no_any
    intro u hu
    rw [List.mem_map] at hu
    obtain ⟨k, -, rfl⟩ := hu
    rfl
  have hall : ((n :: ns).map Value.int).all (fitsV c) = true := by
    rw [List.all_eq_true]
    intro u hu
    rw [List.mem_map] at hu
    obtain ⟨k, hk1, rfl⟩ := hu
    exact fits_of_covers hcov
      (by exact_mod_cast listMinZ_le n ns k hk1)
      (by exact_mod_cast le_listMaxZ n ns k hk1)
  refine ⟨c.code, ((n :: ns).map Value.int).map (convert c), ?_, ?_⟩
  · rw [select_array_of_kind hkT]
    simp only [selectArrayAt, hselT]
    show pack ((n :: ns).map Value.int) c false = _
    unfold pack
    rw [if_neg (show ¬(((n :: ns).map Value.int).any isNonNumericV = true)
      from by rw [hany]; simp)]
    rw [if_pos hall]
  · rw [hspec]

theorem c8_analyze_reasons_witness :
    ((analyze_array [Value.other "x", Value.int 1] {}).reason = .nonNumeric ∧
      (analyze_array [Value.other "x", Value.int 1] {}).typecode = none) ∧
    (analyze_array [Value.float (.fin 1), Value.float (.fin 2)]
      { no_float := true }).reason = .noFittingType := by
  refine ⟨?_, ?_⟩
  · exact c8_analyze_reasons.2.1 [Value.other "x", Value.int 1] (by decide)
  · exact c8_analyze_reasons.2.2 (Value.float (.fin 1)) [Value.float (.fin 2)]
      (by decide)

end ToArray
